import Mathlib

/-!
Verification of the markdown rendering pipeline of `src/backend/markdown.rs`.

The Rust source is shallowly embedded over `List Char` / `String`:

* plain string helpers (`slugify`, `strip_first_heading`, `escape_html`,
  `extract_tags`, the truncation step of `extract_excerpt`) are translated
  directly;
* the regex passes of `preprocess_obsidian_syntax` and of the HTML
  postprocessors are modelled by deterministic scanners that reproduce the
  leftmost, non-overlapping replacement behaviour of the source patterns;
* the structural markdown parse (the external `pulldown-cmark` library) is
  modelled for the constructs the verified properties exercise: blank-line
  separated paragraphs with raw inline HTML passthrough and fenced code
  blocks; the event transformation loop of `render_obsidian_markdown` is
  translated directly;
* the sanitizer (the external `ammonia` library, configured in
  `sanitize_html`) is modelled as an allowlist filter over an HTML token
  stream, with the exact tag/attribute/class policy built in the source:
  `Builder::tag_attributes` replaces the default tag-attribute map, the
  default tag set and generic attributes of the library are kept, `script`
  and `style` have their content removed, and `link_rel` appends
  `rel="noopener noreferrer"` to every anchor.

Character classes follow the ASCII regex classes of the source
(`[a-zA-Z]`, `[a-zA-Z0-9_-]`, ...); Unicode-only aspects of Rust
`to_lowercase`/`trim` are modelled by their ASCII restrictions.
-/

namespace Blog

/-- The character class `[a-zA-Z0-9_-]` used after the leading letter of an
inline tag in the source regexes. -/
def isTagChar (c : Char) : Bool :=
  c.isAlpha || c.isDigit || c = '_' || c = '-'

/-- The character class `[a-zA-Z0-9-]` of the block-id regex. -/
def isBlockChar (c : Char) : Bool :=
  c.isAlpha || c.isDigit || c = '-'

/-- Index of the first occurrence of `pat` in the haystack, as `str::find`
computes it for a literal pattern (character positions; the source uses byte
positions, which address the same occurrence). -/
def findSub (pat : List Char) : List Char → Option Nat
  | [] => if pat.isEmpty then some 0 else none
  | c :: cs =>
    if pat.isPrefixOf (c :: cs) then some 0
    else (findSub pat cs).map (· + 1)

/-- Whether `pat` occurs as a contiguous substring of `hay`. -/
def containsSub (hay pat : String) : Bool :=
  (findSub pat.toList hay.toList).isSome

theorem toList_asString (l : List Char) : l.asString.toList = l := rfl

/-- Whether `pat` occurs as a contiguous sublist of `l`. -/
def occursIn (pat l : List Char) : Bool :=
  (findSub pat l).isSome

/-! ## `strip_first_heading` (markdown.rs:361-368) -/

/-- Model of `strip_first_heading`: if the content starts with `"# "`
(Rust `starts_with`, modelled by `List.isPrefixOf`), drop everything up to
and including the first occurrence of `"\n\n"`; otherwise return the content
unchanged.  (The source drops `pos + 2` bytes where `pos` is the byte index
of the first occurrence; dropping through the occurrence is the same
operation at character level.) -/
def strip_first_heading (content : String) : String :=
  if "# ".toList.isPrefixOf content.toList then
    match findSub "\n\n".toList content.toList with
    | some pos => ((content.toList).drop (pos + 2)).asString
    | none => content
  else content

/-! ## `slugify` (markdown.rs:371-380) -/

/-- Model of Rust `split('-')`, producing the (possibly empty) segments
between dashes. -/
def splitDash : List Char → List (List Char)
  | [] => [[]]
  | c :: cs =>
    if c = '-' then [] :: splitDash cs
    else
      match splitDash cs with
      | t :: ts => (c :: t) :: ts
      | [] => [[c]]

/-- Model of `slugify`: lowercase, map each non-alphanumeric character to a
dash, split on dashes, drop the empty segments, and join with dashes
(Rust `.join`, i.e. intercalation). -/
def slugify (text : String) : String :=
  let mapped := (text.toList.map Char.toLower).map fun c =>
    if c.isAlphanum then c else '-'
  (List.intercalate ['-'] ((splitDash mapped).filter fun s => !s.isEmpty)).asString

/-- Joining tokens with single dashes, written as the specification phrases
it: the tokens are rejoined with `"-"` between consecutive tokens. -/
def joinDashes : List (List Char) → List Char
  | [] => []
  | [t] => t
  | t :: ts => t ++ '-' :: joinDashes ts

/-- The reference definition of slugification from the specification:
lowercase the string, map every non-alphanumeric character to `-`, split on
`-`, drop empty tokens, and rejoin with `-`. -/
def slugifySpec (text : String) : String :=
  let lowered := text.toList.map Char.toLower
  let dashed := lowered.map fun c => if c.isAlphanum then c else '-'
  let toks := (splitDash dashed).filter fun t => !t.isEmpty
  (joinDashes toks).asString

/-- No adjacent pair of dashes anywhere in the list. -/
def noDoubleDash : List Char → Bool
  | [] => true
  | c :: cs => !(c = '-' && cs.head? = some '-') && noDoubleDash cs

/-- The last element of a character list. -/
def lastChar : List Char → Option Char
  | [] => none
  | [c] => some c
  | _ :: c :: cs => lastChar (c :: cs)

/-- The output has no leading, trailing, or doubled dash. -/
def noDashArtifacts (s : List Char) : Bool :=
  s.head? ≠ some '-' && lastChar s ≠ some '-' && noDoubleDash s

theorem joinDashes_eq_intercalate (l : List (List Char)) :
    joinDashes l = List.intercalate ['-'] l := by
  induction l with
  | nil => rfl
  | cons t ts ih =>
    cases ts with
    | nil => simp [joinDashes, List.intercalate]
    | cons u us =>
      simp only [joinDashes] at ih ⊢
      rw [ih]
      simp [List.intercalate, List.intersperse]

theorem splitDash_no_dash (l : List Char) :
    ∀ part ∈ splitDash l, '-' ∉ part := by
  induction l with
  | nil =>
    intro part h
    simp only [splitDash, List.mem_singleton] at h
    simp [h]
  | cons c cs ih =>
    intro part h
    by_cases hc : c = '-'
    · subst hc
      simp [splitDash] at h
      rcases h with h | h
      · simp [h]
      · exact ih part h
    · simp only [splitDash, if_neg hc] at h
      rcases hs : splitDash cs with _ | ⟨t, ts⟩
      · rw [hs] at h
        simp only [List.mem_singleton] at h
        subst h
        intro hm
        rcases List.mem_cons.mp hm with h1 | h1
        · exact hc h1.symm
        · simp at h1
      · rw [hs] at h
        rcases List.mem_cons.mp h with h1 | h1
        · subst h1
          intro hm
          rcases List.mem_cons.mp hm with h2 | h2
          · exact hc h2.symm
          · exact ih t (hs ▸ List.mem_cons_self t ts) h2
        · exact ih part (hs ▸ List.mem_cons_of_mem t h1)

theorem head?_joinDashes {t : List Char} {ts : List (List Char)}
    (h : t ≠ []) : (joinDashes (t :: ts)).head? = t.head? := by
  cases ts with
  | nil => rfl
  | cons u us =>
    simp only [joinDashes]
    cases t with
    | nil => exact absurd rfl h
    | cons a t' => rfl

theorem noDoubleDash_append {t r : List Char} (ht : '-' ∉ t)
    (hr : noDoubleDash r = true) :
    noDoubleDash (t ++ r) = true := by
  induction t with
  | nil => simpa using hr
  | cons c t' ih =>
    have hc : c ≠ '-' := fun h => ht (h ▸ List.mem_cons_self c t')
    have ht' : '-' ∉ t' := fun h => ht (List.mem_cons_of_mem c h)
    simp only [List.cons_append, noDoubleDash, Bool.and_eq_true,
      Bool.not_eq_true']
    refine ⟨?_, ih ht'⟩
    simp [hc]

theorem lastChar_cons (c : Char) (cs : List Char) :
    lastChar (c :: cs) = if cs.isEmpty then some c else lastChar cs := by
  cases cs with
  | nil => rfl
  | cons d ds => rfl

theorem lastChar_append {t r : List Char} (h : r ≠ []) :
    lastChar (t ++ r) = lastChar r := by
  induction t with
  | nil => rfl
  | cons c t' ih =>
    rw [List.cons_append, lastChar_cons]
    have : (t' ++ r).isEmpty = false := by
      cases ht' : t' ++ r with
      | nil =>
        exact absurd (List.append_eq_nil.mp ht').2 h
      | cons x xs => rfl
    rw [this]
    simpa using ih

theorem lastChar_mem {s : List Char} {c : Char} (h : lastChar s = some c) :
    c ∈ s := by
  induction s with
  | nil => simp [lastChar] at h
  | cons d ds ih =>
    rw [lastChar_cons] at h
    by_cases hds : ds.isEmpty
    · rw [if_pos hds] at h
      simp only [Option.some.injEq] at h
      simp [h]
    · rw [if_neg hds] at h
      exact List.mem_cons_of_mem d (ih h)

theorem joinDashes_ne_nil {t : List Char} {ts : List (List Char)}
    (h : t ≠ []) : joinDashes (t :: ts) ≠ [] := by
  cases ts with
  | nil => simpa [joinDashes]
  | cons u us =>
    simp only [joinDashes]
    intro hj
    exact h (List.append_eq_nil.mp hj).1

theorem lastChar_joinDashes {parts : List (List Char)}
    (hne : ∀ p ∈ parts, p ≠ []) (hnd : ∀ p ∈ parts, '-' ∉ p) :
    lastChar (joinDashes parts) ≠ some '-' := by
  induction parts with
  | nil => simp [joinDashes, lastChar]
  | cons t ts ih =>
    cases ts with
    | nil =>
      simp only [joinDashes]
      intro hlast
      exact hnd t (List.mem_cons_self t []) (lastChar_mem hlast)
    | cons u us =>
      simp only [joinDashes]
      have hne' : ∀ p ∈ u :: us, p ≠ [] := fun p hp =>
        hne p (List.mem_cons_of_mem t hp)
      have hnd' : ∀ p ∈ u :: us, '-' ∉ p := fun p hp =>
        hnd p (List.mem_cons_of_mem t hp)
      have hju : joinDashes (u :: us) ≠ [] :=
        joinDashes_ne_nil (hne' u (List.mem_cons_self u us))
      rw [lastChar_append (by simp)]
      rw [lastChar_cons]
      rw [if_neg (by simpa using hju)]
      exact ih hne' hnd'

theorem noDoubleDash_joinDashes {parts : List (List Char)}
    (hne : ∀ p ∈ parts, p ≠ []) (hnd : ∀ p ∈ parts, '-' ∉ p) :
    noDoubleDash (joinDashes parts) = true := by
  induction parts with
  | nil => rfl
  | cons t ts ih =>
    cases ts with
    | nil =>
      simp only [joinDashes]
      have hnd0 := hnd t (List.mem_cons_self t [])
      have : noDoubleDash (t ++ []) = true :=
        noDoubleDash_append hnd0 rfl
      simpa using this
    | cons u us =>
      simp only [joinDashes]
      have hne' : ∀ p ∈ u :: us, p ≠ [] := fun p hp =>
        hne p (List.mem_cons_of_mem t hp)
      have hnd' : ∀ p ∈ u :: us, '-' ∉ p := fun p hp =>
        hnd p (List.mem_cons_of_mem t hp)
      have hu : u ≠ [] := hne' u (List.mem_cons_self u us)
      have hhead : (joinDashes (u :: us)).head? ≠ some '-' := by
        rw [head?_joinDashes hu]
        intro hh
        exact hnd' u (List.mem_cons_self u us) (List.mem_of_mem_head? hh)
      have hrest : noDoubleDash ('-' :: joinDashes (u :: us)) = true := by
        simp only [noDoubleDash, Bool.and_eq_true, Bool.not_eq_true']
        refine ⟨?_, ih hne' hnd'⟩
        cases hj : (joinDashes (u :: us)).head? with
        | none => simp
        | some e =>
          have he : e ≠ '-' := fun h => hhead (by rw [hj, h])
          simp [he]
      exact noDoubleDash_append (hnd t (List.mem_cons_self t (u :: us))) hrest

/-- Claim C8: `slugify` coincides with the reference definition of the
specification (lowercase, non-alphanumerics to dashes, split on dashes, drop
empty tokens, rejoin), and consequently its output has no leading, trailing
or doubled hyphen. -/
theorem noDashArtifacts_joinDashes {parts : List (List Char)}
    (hne : ∀ p ∈ parts, p ≠ []) (hnd : ∀ p ∈ parts, '-' ∉ p) :
    noDashArtifacts (joinDashes parts) = true := by
  have h1 : (joinDashes parts).head? ≠ some '-' := by
    cases parts with
    | nil => simp [joinDashes]
    | cons t ts =>
      have ht : t ≠ [] := hne t (List.mem_cons_self t ts)
      rw [head?_joinDashes ht]
      intro hh
      exact hnd t (List.mem_cons_self t ts) (List.mem_of_mem_head? hh)
  have h2 : lastChar (joinDashes parts) ≠ some '-' :=
    lastChar_joinDashes hne hnd
  have h3 : noDoubleDash (joinDashes parts) = true :=
    noDoubleDash_joinDashes hne hnd
  simp [noDashArtifacts, h1, h2, h3]

theorem c8_slugify_eq_reference (s : String) :
    slugify s = slugifySpec s ∧ noDashArtifacts (slugify s).toList = true := by
  have heq : slugify s = slugifySpec s := by
    simp only [slugify, slugifySpec]
    rw [joinDashes_eq_intercalate]
  refine ⟨heq, ?_⟩
  rw [heq]
  simp only [slugifySpec, toList_asString]
  apply noDashArtifacts_joinDashes
  · intro p hp
    have := (List.mem_filter.mp hp).2
    simpa [List.isEmpty_iff] using this
  · intro p hp
    exact splitDash_no_dash _ p (List.mem_filter.mp hp).1

/-! ## Claims C9 and C10 about `strip_first_heading` -/

theorem findSub_cons_isSome {pat : List Char} {c : Char} {cs : List Char}
    (h : (findSub pat cs).isSome = true) :
    (findSub pat (c :: cs)).isSome = true := by
  by_cases hp : pat.isPrefixOf (c :: cs)
  · simp [findSub, hp]
  · simp only [findSub, if_neg hp]
    cases hf : findSub pat cs with
    | none => rw [hf] at h; simp at h
    | some k => simp

theorem findSub_exact {a b : List Char}
    (h1 : occursIn ['\n', '\n'] (a ++ ['\n']) = false) :
    findSub ['\n', '\n'] (a ++ '\n' :: '\n' :: b) = some a.length := by
  induction a with
  | nil =>
    simp [findSub, List.isPrefixOf]
  | cons c a' ih =>
    have h1' : occursIn ['\n', '\n'] (a' ++ ['\n']) = false := by
      cases hoc : occursIn ['\n', '\n'] (a' ++ ['\n']) with
      | false => rfl
      | true =>
        exfalso
        have hs : (findSub ['\n', '\n'] (a' ++ ['\n'])).isSome = true := by
          simpa [occursIn] using hoc
        have h2 := findSub_cons_isSome (c := c) hs
        simp only [occursIn, List.cons_append] at h1
        rw [h2] at h1
        simp at h1
    have hnp : ['\n', '\n'].isPrefixOf (c :: (a' ++ '\n' :: '\n' :: b)) = false := by
      cases a' with
      | nil =>
        cases hcn : ('\n' : Char) == c with
        | false => simp [List.isPrefixOf, hcn]
        | true =>
          exfalso
          have hc : c = '\n' := (beq_iff_eq.mp hcn).symm
          subst hc
          simp [occursIn, findSub, List.isPrefixOf] at h1
      | cons d a'' =>
        cases hcn : ('\n' : Char) == c with
        | false => simp [List.isPrefixOf, hcn]
        | true =>
          cases hdn : ('\n' : Char) == d with
          | false => simp [List.isPrefixOf, hcn, hdn]
          | true =>
            exfalso
            have hc : c = '\n' := (beq_iff_eq.mp hcn).symm
            have hd : d = '\n' := (beq_iff_eq.mp hdn).symm
            subst hc; subst hd
            simp [occursIn, findSub, List.isPrefixOf] at h1
    rw [List.cons_append]
    rw [show findSub ['\n', '\n'] (c :: (a' ++ '\n' :: '\n' :: b)) =
      if ['\n', '\n'].isPrefixOf (c :: (a' ++ '\n' :: '\n' :: b)) then some 0
      else (findSub ['\n', '\n'] (a' ++ '\n' :: '\n' :: b)).map (fun i => i + 1) from rfl]
    rw [if_neg (by simp [hnp]), ih h1']
    simp

/-- Claim C9: `strip_first_heading` on a document that starts with `"# "`
removes everything up to and including the first blank line; documents not
starting with `"# "` are returned unchanged; and the concrete example of the
specification holds. -/
theorem c9_strip_first_heading :
    strip_first_heading "# Title\n\nBody text" = "Body text" ∧
    (∀ s : String, "# ".toList.isPrefixOf s.toList = false →
      strip_first_heading s = s) ∧
    (∀ a b : String, "# ".toList.isPrefixOf a.toList = true →
      occursIn ['\n', '\n'] (a.toList ++ ['\n']) = false →
      strip_first_heading (a ++ "\n\n" ++ b) = b) := by
  refine ⟨by decide, ?_, ?_⟩
  · intro s h
    unfold strip_first_heading
    rw [if_neg]
    intro hc
    rw [h] at hc
    exact Bool.noConfusion hc
  · intro a b h1 h2
    have htl : (a ++ "\n\n" ++ b).toList = a.toList ++ '\n' :: '\n' :: b.toList := by
      rw [show (a ++ "\n\n" ++ b).toList = (a.toList ++ ['\n', '\n']) ++ b.toList from rfl,
        List.append_assoc]
      rfl
    have hpre : "# ".toList.isPrefixOf (a.toList ++ '\n' :: '\n' :: b.toList) = true := by
      have h1p : "# ".toList <+: a.toList := by simpa using h1
      exact List.isPrefixOf_iff_prefix.mpr (h1p.trans (List.prefix_append _ _))
    have hdrop : (a.toList ++ '\n' :: '\n' :: b.toList).drop (a.toList.length + 2) =
        b.toList := by
      have hsplit : a.toList ++ '\n' :: '\n' :: b.toList
          = (a.toList ++ ['\n', '\n']) ++ b.toList := by simp
      rw [hsplit, List.drop_left' (by simp)]
    unfold strip_first_heading
    rw [htl, if_pos hpre]
    rw [show ("\n\n".toList : List Char) = ['\n', '\n'] from rfl]
    rw [findSub_exact h2]
    show ((a.toList ++ '\n' :: '\n' :: b.toList).drop (a.toList.length + 2)).asString = b
    rw [hdrop]
    rfl

/-- Witness for claim C9 at a concrete input. -/
theorem c9_strip_first_heading_witness :
    strip_first_heading ("# X" ++ "\n\n" ++ "Y") = "Y" :=
  c9_strip_first_heading.2.2 "# X" "Y" (by decide) (by decide)

/-- Claim C10: a document that starts with `"# "` but contains no blank line
is returned unchanged, heading included. -/
theorem c10_strip_heading_without_blank_line (s : String)
    (h1 : "# ".toList.isPrefixOf s.toList = true)
    (h2 : occursIn ['\n', '\n'] s.toList = false) :
    strip_first_heading s = s := by
  unfold strip_first_heading
  rw [if_pos h1]
  rw [show ("\n\n".toList : List Char) = ['\n', '\n'] from rfl]
  have : findSub ['\n', '\n'] s.toList = none := by
    cases hf : findSub ['\n', '\n'] s.toList with
    | none => rfl
    | some k =>
      exfalso
      have h3 : (findSub ['\n', '\n'] s.toList).isSome = false := h2
      rw [hf] at h3
      simp at h3
  rw [this]

/-- Witness for claim C10 at a concrete input. -/
theorem c10_strip_heading_without_blank_line_witness :
    strip_first_heading "# Title\nBody" = "# Title\nBody" :=
  c10_strip_heading_without_blank_line "# Title\nBody" (by decide) (by decide)

/-! ## Claim C7: the truncation step of `extract_excerpt`
(markdown.rs:321-333) -/

/-- Cut a character list at its last space: everything strictly before the
last occurrence of a space character, the whole list when no space occurs.
This models `excerpt.rfind(' ')` followed by `excerpt.truncate(last_space)`
in the source. -/
def cutAtLastSpace (l : List Char) : List Char :=
  if ' ' ∈ l then ((l.reverse.dropWhile fun c => c ≠ ' ').drop 1).reverse
  else l

/-- Rust `str::trim`, restricted to ASCII whitespace. -/
def trimChars (l : List Char) : List Char :=
  ((l.dropWhile Char.isWhitespace).reverse.dropWhile Char.isWhitespace).reverse

/-- Model of the truncation step of `extract_excerpt`: the plain text is
returned unchanged when its UTF-8 byte count (`String::len` in Rust) is at
most `max_length`; otherwise the first `max_length` characters are taken,
cut back to the last space when one exists, trimmed, and an ellipsis is
appended. -/
def excerptTruncate (plainText : String) (maxLength : Nat) : String :=
  if plainText.utf8ByteSize ≤ maxLength then plainText
  else (trimChars (cutAtLastSpace (plainText.toList.take maxLength))).asString ++ "..."

/-- Claim C7 as stated: the overflow test is on the number of characters of
the plain text ("exceeds max_length characters"), the text is returned
unchanged (no ellipsis) when it does not exceed that count. -/
def excerptClaimC7 : Prop :=
  ∀ (pt : String) (n : Nat),
    excerptTruncate pt n =
      if pt.length ≤ n then pt
      else (trimChars (cutAtLastSpace (pt.toList.take n))).asString ++ "..."

/-- Counterexample to claim C7: the source tests the UTF-8 byte length, not
the character count.  The two-character text `"日本"` occupies six bytes, so
with `max_length = 3` the code truncates and appends an ellipsis even though
the text does not exceed three characters. -/
theorem c7_counterexample : ¬ excerptClaimC7 := fun h => by
  have h2 := h "日本" 3
  rw [if_pos (by decide)] at h2
  exact absurd h2 (by decide)

/-- Claim C7 as amended: with the overflow test on the UTF-8 byte length,
the truncation behaviour is exactly as claimed: unchanged text without
ellipsis when it fits, otherwise the first `max_length` characters cut at
the last space, trimmed, with the ellipsis marker appended. -/
theorem c7_excerpt_truncation_amended (pt : String) (n : Nat) :
    excerptTruncate pt n =
      if pt.utf8ByteSize ≤ n then pt
      else (trimChars (cutAtLastSpace (pt.toList.take n))).asString ++ "..." := rfl

/-! ## Claim C6: `extract_tags` (markdown.rs:337-346) -/

/-- The capture of the `extract_tags` regex `#([a-zA-Z][a-zA-Z0-9_-]*)` when
matched at position `i`: a `#` immediately followed by a letter, capturing
the letter and the maximal following run of `[a-zA-Z0-9_-]` characters. -/
def tagCaptureAt (l : List Char) (i : Nat) : Option (List Char) :=
  match l.drop i with
  | c :: d :: rest =>
    if c = '#' then
      if d.isAlpha then some (d :: rest.takeWhile isTagChar) else none
    else none
  | _ => none

/-- The names captured by scanning the text left to right with the
`extract_tags` regex, in order of occurrence and with duplicates. -/
def collectTags : List Char → List (List Char)
  | [] => []
  | c :: cs =>
    if c = '#' then
      match cs with
      | [] => []
      | d :: cs2 =>
        if d.isAlpha then (d :: cs2.takeWhile isTagChar) :: collectTags cs
        else collectTags cs
    else collectTags cs

/-- Append an element unless it is already present (set insertion; the
source inserts into a `HashSet`, whose iteration order is unspecified, so
only the set of returned names is meaningful). -/
def addNew (acc : List (List Char)) (t : List Char) : List (List Char) :=
  if t ∈ acc then acc else acc ++ [t]

/-- Model of `extract_tags`: every capture of the tag regex over the whole
document, deduplicated. -/
def extract_tags (content : String) : List String :=
  ((collectTags content.toList).foldl addNew []).map List.asString

/-- The inline-tag pattern of the preprocessor, `(?:^|\s)#([a-zA-Z][a-zA-Z0-9_-]*)`:
position `i` is preceded by start of text or by a whitespace character. -/
def tagBoundaryAt (l : List Char) (i : Nat) : Bool :=
  i == 0 ||
    (match l.drop (i - 1) with
     | c :: _ => c.isWhitespace
     | [] => false)

/-- Whether `t` is captured by the tag regex somewhere in the content. -/
def tagOccursAnywhere (content t : String) : Bool :=
  (List.range content.toList.length).any fun i =>
    tagCaptureAt content.toList i == some t.toList

/-- Whether `t` is captured by the tag regex at a position preceded by start
of text or whitespace (the inline-tag pattern of the specification). -/
def tagOccursAtBoundary (content t : String) : Bool :=
  (List.range content.toList.length).any fun i =>
    tagBoundaryAt content.toList i &&
      (tagCaptureAt content.toList i == some t.toList)

/-- Claim C6 as stated: `extract_tags` returns exactly the names whose
occurrence matches the inline-tag pattern, i.e. is preceded by start of text
or whitespace. -/
def claimC6 : Prop :=
  ∀ (content t : String),
    t ∈ extract_tags content ↔ tagOccursAtBoundary content t = true

/-- Counterexample to claim C6: the regex of `extract_tags` has no
`(?:^|\s)` guard, so in `"a#b"` the name `b` is extracted although no
occurrence is preceded by start of text or whitespace. -/
theorem c6_counterexample : ¬ claimC6 := fun h => by
  have h2 := (h "a#b" "b").mp (by decide)
  exact absurd h2 (by decide)

theorem tagCaptureAt_succ (c : Char) (cs : List Char) (i : Nat) :
    tagCaptureAt (c :: cs) (i + 1) = tagCaptureAt cs i := by
  simp [tagCaptureAt]

theorem tagCaptureAt_zero_alpha {d : Char} (cs2 : List Char)
    (hd : d.isAlpha = true) :
    tagCaptureAt ('#' :: d :: cs2) 0 = some (d :: cs2.takeWhile isTagChar) := by
  simp [tagCaptureAt, hd]

theorem tagCaptureAt_zero_nonalpha {d : Char} (cs2 : List Char)
    (hd : d.isAlpha = false) :
    tagCaptureAt ('#' :: d :: cs2) 0 = none := by
  simp [tagCaptureAt, hd]

theorem tagCaptureAt_zero_other {c : Char} (cs : List Char) (hc : c ≠ '#') :
    tagCaptureAt (c :: cs) 0 = none := by
  cases cs with
  | nil => simp [tagCaptureAt]
  | cons d cs2 => simp [tagCaptureAt, hc]

theorem collectTags_hash_alpha {d : Char} (cs2 : List Char)
    (hd : d.isAlpha = true) :
    collectTags ('#' :: d :: cs2) =
      (d :: cs2.takeWhile isTagChar) :: collectTags (d :: cs2) := by
  simp [collectTags, hd]

theorem collectTags_hash_nonalpha {d : Char} (cs2 : List Char)
    (hd : d.isAlpha = false) :
    collectTags ('#' :: d :: cs2) = collectTags (d :: cs2) := by
  simp [collectTags, hd]

theorem collectTags_other {c : Char} (cs : List Char) (hc : c ≠ '#') :
    collectTags (c :: cs) = collectTags cs := by
  simp [collectTags, hc]

theorem exists_tagCaptureAt_cons (c : Char) (cs : List Char) (u : List Char)
    (h0 : tagCaptureAt (c :: cs) 0 = none) :
    (∃ i, tagCaptureAt (c :: cs) i = some u) ↔
      ∃ i, tagCaptureAt cs i = some u := by
  constructor
  · rintro ⟨i, hi⟩
    match i, hi with
    | 0, hi => rw [h0] at hi; exact Option.noConfusion hi
    | i + 1, hi => rw [tagCaptureAt_succ] at hi; exact ⟨i, hi⟩
  · rintro ⟨i, hi⟩
    exact ⟨i + 1, by rw [tagCaptureAt_succ]; exact hi⟩

theorem collectTags_iff (cs : List Char) (u : List Char) :
    u ∈ collectTags cs ↔ ∃ i, tagCaptureAt cs i = some u := by
  induction cs with
  | nil =>
    simp [collectTags, tagCaptureAt]
  | cons c cs ih =>
    by_cases hc : c = '#'
    · subst hc
      cases cs with
      | nil =>
        show u ∈ ([] : List (List Char)) ↔ _
        rw [exists_tagCaptureAt_cons _ _ _ (by simp [tagCaptureAt])]
        simp [tagCaptureAt]
      | cons d cs2 =>
        by_cases hd : d.isAlpha = true
        · rw [collectTags_hash_alpha cs2 hd, List.mem_cons, ih]
          constructor
          · rintro (h | ⟨i, hi⟩)
            · exact ⟨0, by rw [tagCaptureAt_zero_alpha cs2 hd, h]⟩
            · exact ⟨i + 1, by rw [tagCaptureAt_succ]; exact hi⟩
          · rintro ⟨i, hi⟩
            match i, hi with
            | 0, hi =>
              left
              rw [tagCaptureAt_zero_alpha cs2 hd] at hi
              exact (Option.some.injEq _ _ ▸ hi : _ = u).symm ▸ rfl
            | i + 1, hi =>
              right
              rw [tagCaptureAt_succ] at hi
              exact ⟨i, hi⟩
        · have hd' : d.isAlpha = false := by
            cases hiso : d.isAlpha with
            | false => rfl
            | true => exact absurd hiso hd
          rw [collectTags_hash_nonalpha cs2 hd', ih,
            exists_tagCaptureAt_cons _ _ _ (tagCaptureAt_zero_nonalpha cs2 hd')]
    · rw [collectTags_other cs hc, ih,
        exists_tagCaptureAt_cons _ _ _ (tagCaptureAt_zero_other cs hc)]

theorem tagCaptureAt_none_of_ge {l : List Char} {i : Nat}
    (h : l.length ≤ i) : tagCaptureAt l i = none := by
  have : l.drop i = [] := List.drop_eq_nil_of_le h
  simp [tagCaptureAt, this]

theorem foldl_addNew_mem (l : List (List Char)) (acc : List (List Char))
    (x : List Char) : x ∈ l.foldl addNew acc ↔ x ∈ acc ∨ x ∈ l := by
  induction l generalizing acc with
  | nil => simp
  | cons t l ih =>
    rw [List.foldl_cons, ih]
    constructor
    · rintro (h | h)
      · by_cases ht : t ∈ acc
        · simp only [addNew, if_pos ht] at h
          exact Or.inl h
        · simp only [addNew, if_neg ht, List.mem_append,
            List.mem_singleton] at h
          rcases h with h | h
          · exact Or.inl h
          · exact Or.inr (h ▸ List.mem_cons_self t l)
      · exact Or.inr (List.mem_cons_of_mem t h)
    · rintro (h | h)
      · left
        by_cases ht : t ∈ acc
        · simpa [addNew, if_pos ht] using h
        · simp [addNew, if_neg ht, List.mem_append, h]
      · rcases List.mem_cons.mp h with h1 | h1
        · left
          subst h1
          by_cases ht : x ∈ acc
          · simpa [addNew, if_pos ht] using ht
          · simp [addNew, if_neg ht]
        · exact Or.inr h1

theorem foldl_addNew_nodup (l : List (List Char)) (acc : List (List Char))
    (h : acc.Nodup) : (l.foldl addNew acc).Nodup := by
  induction l generalizing acc with
  | nil => simpa
  | cons t l ih =>
    rw [List.foldl_cons]
    apply ih
    by_cases ht : t ∈ acc
    · simpa [addNew, if_pos ht]
    · simp [addNew, if_neg ht, List.nodup_append, h, ht]

theorem mem_extract_tags (content t : String) :
    t ∈ extract_tags content ↔ t.toList ∈ (collectTags content.toList).foldl addNew [] := by
  unfold extract_tags
  rw [List.mem_map]
  constructor
  · rintro ⟨u, hu, hut⟩
    have : u = t.toList := by
      have := congrArg String.toList hut
      rwa [toList_asString] at this
    exact this ▸ hu
  · intro h
    exact ⟨t.toList, h, rfl⟩

/-- Claim C6 as amended: `extract_tags` returns exactly the deduplicated set
of names captured by the tag regex anywhere in the document, with no
requirement that the occurrence be preceded by start of text or whitespace,
and the returned list has no duplicates. -/
theorem c6_extract_tags_amended (content t : String) :
    (t ∈ extract_tags content ↔ tagOccursAnywhere content t = true) ∧
    (extract_tags content).Nodup := by
  constructor
  · rw [mem_extract_tags, foldl_addNew_mem, collectTags_iff]
    simp only [List.not_mem_nil, false_or]
    unfold tagOccursAnywhere
    rw [List.any_eq_true]
    constructor
    · rintro ⟨i, hi⟩
      have hlt : i < content.toList.length := by
        by_contra hge
        rw [tagCaptureAt_none_of_ge (Nat.le_of_not_lt hge)] at hi
        exact Option.noConfusion hi
      exact ⟨i, List.mem_range.mpr hlt, by simpa using hi⟩
    · rintro ⟨i, _, hi⟩
      exact ⟨i, by simpa using hi⟩
  · unfold extract_tags
    apply List.Nodup.map
    · intro a b hab
      have := congrArg String.toList hab
      rwa [toList_asString, toList_asString] at this
    · exact foldl_addNew_nodup _ [] List.nodup_nil

/-! ## `escape_html` (markdown.rs:395-402) -/

/-- Escape one character.  The source chains five global replacements with
the ampersand first, which equals this single character-by-character map. -/
def escChar (c : Char) : List Char :=
  if c = '&' then "&amp;".toList
  else if c = '<' then "&lt;".toList
  else if c = '>' then "&gt;".toList
  else if c = '"' then "&quot;".toList
  else if c = Char.ofNat 39 then "&#39;".toList
  else [c]

/-- Model of `escape_html` over character lists. -/
def escapeChars (l : List Char) : List Char :=
  l.foldr (fun c r => escChar c ++ r) []

/-- Model of `escape_html` (markdown.rs:395-402). -/
def escape_html (s : String) : String := (escapeChars s.toList).asString

/-! ## `preprocess_obsidian_syntax` (markdown.rs:160-222) -/

/-- The anchor emitted for a wiki-link (markdown.rs:170-173); the icon glyph
of the source file is the empty string. -/
def wikiAnchor (target display : List Char) : List Char :=
  "<a href=\"/blogs/".toList ++ (slugify target.asString).toList
    ++ "\" class=\"wiki-link\" data-page=\"".toList ++ target
    ++ "\"><span class=\"link-icon\"></span> ".toList ++ display
    ++ "</a>".toList

/-- Scanner for the wiki-link pass, regex `\[\[([^\]|]+)(?:\|([^\]]+))?\]\]`:
at each `[[` the target is the maximal run without `]` or `|`; an optional
`|display` part runs to the next `]`; the match must close with `]]`,
otherwise the scan advances one character, exactly as the regex engine
does.  The fuel is the input length, which the scan never exceeds. -/
def wikiGo : Nat → List Char → List Char
  | 0, s => s
  | _ + 1, [] => []
  | f + 1, '[' :: '[' :: cs =>
    let t := cs.takeWhile fun c => c ≠ ']' && c ≠ '|'
    let r1 := cs.drop t.length
    if t.isEmpty then '[' :: wikiGo f ('[' :: cs)
    else
      match r1 with
      | ']' :: ']' :: rest => wikiAnchor t t ++ wikiGo f rest
      | '|' :: r2 =>
        let d := r2.takeWhile fun c => c ≠ ']'
        let r3 := r2.drop d.length
        if d.isEmpty then '[' :: wikiGo f ('[' :: cs)
        else
          match r3 with
          | ']' :: ']' :: rest => wikiAnchor t d ++ wikiGo f rest
          | _ => '[' :: wikiGo f ('[' :: cs)
      | _ => '[' :: wikiGo f ('[' :: cs)
  | f + 1, c :: cs => c :: wikiGo f cs

/-- The span emitted for an inline tag (markdown.rs:182-184): note the
leading space, which replaces the matched whitespace character. -/
def tagSpanHtml (tag : List Char) : List Char :=
  " <span class=\"obsidian-tag\" data-tag=\"".toList ++ tag
    ++ "\"><span class=\"tag-icon\"></span>".toList ++ tag
    ++ "</span>".toList

/-- Scanner for the inline-tag pass, regex `(?:^|\s)#([a-zA-Z][a-zA-Z0-9_-]*)`:
a match either sits at the very start of the text (`atStart`) or consumes
one whitespace character; the capture is a letter followed by the maximal
run of tag characters. -/
def tagGo : Nat → Bool → List Char → List Char
  | 0, _, s => s
  | _ + 1, _, [] => []
  | f + 1, atStart, c :: cs =>
    if atStart && c = '#' then
      match cs with
      | d :: cs2 =>
        if d.isAlpha then
          tagSpanHtml (d :: cs2.takeWhile isTagChar)
            ++ tagGo f false (cs2.dropWhile isTagChar)
        else c :: tagGo f false cs
      | [] => [c]
    else if c.isWhitespace then
      match cs with
      | '#' :: d :: cs2 =>
        if d.isAlpha then
          tagSpanHtml (d :: cs2.takeWhile isTagChar)
            ++ tagGo f false (cs2.dropWhile isTagChar)
        else c :: tagGo f false cs
      | _ => c :: tagGo f false cs
    else c :: tagGo f false cs

/-- The span emitted for a block reference (markdown.rs:194-196). -/
def blockRefSpan (id : List Char) : List Char :=
  "<span class=\"block-ref\" id=\"block-".toList ++ id
    ++ "\" data-block-id=\"".toList ++ id ++ "\"></span>".toList

/-- The block-id pass, regex `\^([a-zA-Z0-9-]+)$` with `replace_all`.  The
regex has no multi-line flag, so `$` matches only the end of the whole
text; the unique possible match is the maximal trailing run of block-id
characters when the character before it is a caret. -/
def blockIdPass (s : List Char) : List Char :=
  if (s.reverse.takeWhile isBlockChar).isEmpty then s
  else
    match s.reverse.drop (s.reverse.takeWhile isBlockChar).length with
    | '^' :: rest =>
      rest.reverse ++ blockRefSpan (s.reverse.takeWhile isBlockChar).reverse
    | _ => s

/-- Model of `is_image` (markdown.rs:383-392). -/
def is_image (resource : List Char) : Bool :=
  let lower := resource.map Char.toLower
  ".png".toList.isSuffixOf lower || ".jpg".toList.isSuffixOf lower
    || ".jpeg".toList.isSuffixOf lower || ".gif".toList.isSuffixOf lower
    || ".webp".toList.isSuffixOf lower || ".svg".toList.isSuffixOf lower
    || ".avif".toList.isSuffixOf lower

/-- The markup emitted for an embed `![[resource]]` (markdown.rs:206-217). -/
def embedHtml (resource : List Char) : List Char :=
  if is_image resource then
    "<img src=\"/api/assets/".toList ++ (slugify resource.asString).toList
      ++ "\" alt=\"".toList ++ resource
      ++ "\" class=\"obsidian-embed-image\" loading=\"lazy\" />".toList
  else
    "<div class=\"obsidian-embed\" data-page=\"".toList ++ resource
      ++ "\"><span class=\"embed-icon\"></span> ".toList ++ resource
      ++ "</div>".toList

/-- Scanner for the embed pass, regex `!\[\[([^\]]+)\]\]`. -/
def embedGo : Nat → List Char → List Char
  | 0, s => s
  | _ + 1, [] => []
  | f + 1, '!' :: '[' :: '[' :: cs =>
    let r := cs.takeWhile fun c => c ≠ ']'
    if r.isEmpty then '!' :: embedGo f ('[' :: '[' :: cs)
    else
      match cs.drop r.length with
      | ']' :: ']' :: rest => embedHtml r ++ embedGo f rest
      | _ => '!' :: embedGo f ('[' :: '[' :: cs)
  | f + 1, c :: cs => c :: embedGo f cs

/-- Model of `preprocess_obsidian_syntax` (markdown.rs:160-222): the four
regex passes applied in the order of the source: wiki-links, inline tags,
block ids, embeds. -/
def preprocess_obsidian_syntax (content : String) : String :=
  let p1 := wikiGo content.toList.length content.toList
  let p2 := tagGo p1.length true p1
  let p3 := blockIdPass p2
  let p4 := embedGo p3.length p3
  p4.asString

/-! ## Claim C5: block references -/

/-- Claim C5 as stated: every `^id` run at the end of a line (or of the
text) is replaced, so the block-reference span appears in the preprocessed
output. -/
def claimC5 : Prop :=
  ∀ (pre id rest : String), id.toList ≠ [] →
    id.toList.all isBlockChar = true →
    occursIn (blockRefSpan id.toList)
      ( preprocess_obsidian_syntax (pre ++ "^" ++ id ++ "\n" ++ rest)).toList = true

/-- Counterexample to claim C5: in `"a ^x\nb"` the block id `x` ends a line
but not the text, and the block-id regex has no multi-line flag, so nothing
is replaced and no block-reference span appears. -/
theorem c5_counterexample : ¬ claimC5 := fun h => by
  have h2 := h "a " "x" "b" (by decide) (by decide)
  exact absurd h2 (by decide)

theorem takeWhile_append_of_stop {p : Char → Bool} (a : List Char) {x : Char}
    (r : List Char) (ha : a.all p = true) (hx : p x = false) :
    (a ++ x :: r).takeWhile p = a := by
  induction a with
  | nil => simp [List.takeWhile_cons, hx]
  | cons c a' ih =>
    simp only [List.all_cons, Bool.and_eq_true] at ha
    simp [List.takeWhile_cons, ha.1, ih ha.2]

/-- Claim C5 as amended: the block-id pass rewrites a `^id` run only when it
sits at the very end of the whole text, in which case it is replaced by the
block-reference span. -/
theorem c5_block_ref_amended (pre id : List Char) (h1 : id ≠ [])
    (h2 : id.all isBlockChar = true) :
    blockIdPass (pre ++ '^' :: id) = pre ++ blockRefSpan id := by
  have hrev : (pre ++ '^' :: id).reverse = id.reverse ++ '^' :: pre.reverse := by
    rw [List.reverse_append]
    simp
  have hall : id.reverse.all isBlockChar = true := by
    rw [List.all_reverse]
    exact h2
  have hcar : isBlockChar '^' = false := by decide
  have htake : (id.reverse ++ '^' :: pre.reverse).takeWhile isBlockChar
      = id.reverse := takeWhile_append_of_stop _ _ hall hcar
  have hdrop : (id.reverse ++ '^' :: pre.reverse).drop id.reverse.length
      = '^' :: pre.reverse := List.drop_left' rfl
  unfold blockIdPass
  rw [hrev, htake]
  rw [if_neg (by simpa using fun hh => h1 (by simpa using congrArg List.reverse hh))]
  rw [hdrop]
  simp

/-- Witness for the amended claim C5 at a concrete input. -/
theorem c5_block_ref_amended_witness :
    blockIdPass ("a ".toList ++ '^' :: "x1".toList)
      = "a ".toList ++ blockRefSpan "x1".toList :=
  c5_block_ref_amended "a ".toList "x1".toList (by decide) (by decide)

/-! ## The sanitizer model (markdown.rs:405-456)

`sanitize_html` configures the ammonia library.  The model below represents
HTML as a token stream (text, opening tag with attributes, closing tag) and
sanitizes it with the policy of the source: the default tag allowlist of the
library, tag attributes exactly as set by `Builder::tag_attributes` (which
replaces the default tag-attribute map), the default generic attributes
`lang`/`title`, per-tag class allowlists as set by `allowed_classes`,
`script`/`style` content removal, and `link_rel` placing
`rel="noopener noreferrer"` on every anchor.  The tag grammar is restricted
to lowercase names and double-quoted attribute values, which covers
everything the pipeline emits. -/

/-- HTML token: a text run, an opening tag, or a closing tag. -/
inductive Tok
  | text (s : List Char)
  | openTag (tagName : List Char) (attrs : List (List Char × List Char))
  | closeTag (tagName : List Char)
deriving Repr, DecidableEq

/-- Characters of tag and attribute names. -/
def isNameChar (c : Char) : Bool := c.isLower || c.isDigit || c = '-'

/-- Decode one text character, resolving the five named entities the
pipeline can produce. -/
def readTextChar (c : Char) (rest : List Char) : Char × List Char :=
  if c = '&' then
    if "amp;".toList.isPrefixOf rest then ('&', rest.drop 4)
    else if "lt;".toList.isPrefixOf rest then ('<', rest.drop 3)
    else if "gt;".toList.isPrefixOf rest then ('>', rest.drop 3)
    else if "quot;".toList.isPrefixOf rest then ('"', rest.drop 5)
    else if "#39;".toList.isPrefixOf rest then (Char.ofNat 39, rest.drop 4)
    else ('&', rest)
  else (c, rest)

/-- Read a double-quoted attribute value up to the closing quote, decoding
entities.  The fuel bounds the number of decoded characters. -/
def readAttrValue : Nat → List Char → Option (List Char × List Char)
  | _, [] => none
  | fuel, c :: rest =>
    if c = '"' then some ([], rest)
    else
      match fuel with
      | 0 => none
      | f + 1 =>
        match readAttrValue f (readTextChar c rest).2 with
        | some (v, r2) => some ((readTextChar c rest).1 :: v, r2)
        | none => none

/-- Whitespace inside a tag. -/
def isSpaceChar (c : Char) : Bool := c = ' ' || c = '\n' || c = '\t' || c = '\r'

/-- Result type of attribute parsing. -/
abbrev AttrsRes := Option (List (List Char × List Char) × List Char)

/-- Prepend a parsed attribute to the result of parsing the remaining ones. -/
def attrsFinish (nm v : List Char) : AttrsRes → AttrsRes
  | some (attrs, r4) => some ((nm, v) :: attrs, r4)
  | none => none

/-- Continue after reading one attribute value. -/
def attrsValue (next : List Char → AttrsRes) (nm : List Char) :
    Option (List Char × List Char) → AttrsRes
  | some (v, r3) => attrsFinish nm v (next r3)
  | none => none

/-- After an attribute name: expect `="value"` and continue. -/
def attrsTail (next : List Char → AttrsRes) (nm : List Char) : List Char → AttrsRes
  | e :: q :: r2 =>
    if e = '=' then
      if q = '"' then attrsValue next nm (readAttrValue r2.length r2)
      else none
    else none
  | _ => none

/-- After a `/`: only `/>` is accepted. -/
def attrsSlash : List Char → AttrsRes
  | r0 :: r => if r0 = '>' then some ([], r) else none
  | [] => none

/-- One step of attribute parsing after skipping whitespace: closing `>`,
self-closing `/>`, or an attribute name. -/
def parseAttrsStep (next : List Char → AttrsRes) : List Char → AttrsRes
  | [] => none
  | c1 :: rest1 =>
    if c1 = '>' then some ([], rest1)
    else if c1 = '/' then attrsSlash rest1
    else if ((c1 :: rest1).takeWhile isNameChar).isEmpty then none
    else
      attrsTail next ((c1 :: rest1).takeWhile isNameChar)
        ((c1 :: rest1).drop ((c1 :: rest1).takeWhile isNameChar).length)

/-- Parse the attribute list of an opening tag up to the closing `>`.  The
fuel bounds the number of attributes; callers pass the input length, which
always suffices. -/
def parseAttrs : Nat → List Char → AttrsRes
  | 0, _ => none
  | f + 1, s => parseAttrsStep (parseAttrs f) (s.dropWhile isSpaceChar)

/-- Completion of a closing tag: expect `>` after the name. -/
def closeFinish (nm : List Char) : List Char → Option (Tok × List Char)
  | g :: r => if g = '>' then some (.closeTag nm, r) else none
  | [] => none

/-- Parse a closing tag after the `</`. -/
def parseClose (rest : List Char) : Option (Tok × List Char) :=
  if (rest.takeWhile isNameChar).isEmpty then none
  else closeFinish (rest.takeWhile isNameChar)
    (rest.drop (rest.takeWhile isNameChar).length)

/-- Completion of an opening tag from the parsed attribute list. -/
def openFinish (nm : List Char) : AttrsRes → Option (Tok × List Char)
  | some (attrs, r) => some (.openTag nm attrs, r)
  | none => none

/-- Parse an opening tag after the `<`. -/
def parseOpen (rest : List Char) : Option (Tok × List Char) :=
  if (rest.takeWhile isNameChar).isEmpty then none
  else openFinish (rest.takeWhile isNameChar)
    (parseAttrs rest.length (rest.drop (rest.takeWhile isNameChar).length))

/-- Dispatch after the `<`: closing or opening tag. -/
def parseTagInner : List Char → Option (Tok × List Char)
  | [] => none
  | d :: cs2 => if d = '/' then parseClose cs2 else parseOpen (d :: cs2)

/-- Parse one tag at the head of the input. -/
def parseTag : List Char → Option (Tok × List Char)
  | [] => none
  | c :: cs => if c = '<' then parseTagInner cs else none

/-- Prepend a character to the leading text token, creating one if needed. -/
def pushChar (ch : Char) : List Tok → List Tok
  | .text s :: ts => .text (ch :: s) :: ts
  | ts => .text [ch] :: ts

/-- Tokenizer loop; the fuel is the input length. -/
def tokGo : Nat → List Char → List Tok
  | _, [] => []
  | 0, _ :: _ => []
  | f + 1, c :: cs =>
    if c = '<' then
      match parseTag (c :: cs) with
      | some (t, rest) => t :: tokGo f rest
      | none => pushChar '<' (tokGo f cs)
    else
      pushChar (readTextChar c cs).1 (tokGo f (readTextChar c cs).2)

/-- Tokenize an HTML string into the token stream. -/
def tokenize (s : List Char) : List Tok := tokGo s.length s

/-- Serializer text escape (ampersand, `<`, `>`). -/
def escTextChar (c : Char) : List Char :=
  if c = '&' then "&amp;".toList
  else if c = '<' then "&lt;".toList
  else if c = '>' then "&gt;".toList
  else [c]

def escText (s : List Char) : List Char :=
  s.foldr (fun c r => escTextChar c ++ r) []

/-- Serializer attribute-value escape (ampersand and double quote). -/
def escAttrChar (c : Char) : List Char :=
  if c = '&' then "&amp;".toList
  else if c = '"' then "&quot;".toList
  else [c]

def escAttr (v : List Char) : List Char :=
  v.foldr (fun c r => escAttrChar c ++ r) []

def serAttr (a : List Char × List Char) : List Char :=
  ' ' :: (a.1 ++ '=' :: '"' :: (escAttr a.2 ++ ['"']))

def serAttrs (attrs : List (List Char × List Char)) : List Char :=
  attrs.foldr (fun a r => serAttr a ++ r) []

def serTok : Tok → List Char
  | .text s => escText s
  | .openTag n attrs => '<' :: (n ++ serAttrs attrs ++ ['>'])
  | .closeTag n => '<' :: '/' :: (n ++ ['>'])

def serToks (ts : List Tok) : List Char :=
  ts.foldr (fun t r => serTok t ++ r) []

/-- Shorthand used by the policy tables. -/
def sl (s : String) : List Char := s.toList

/-- The default tag allowlist of the ammonia builder; the source never calls
`Builder::tags`, so it stays in force. -/
def allowedTags : List (List Char) :=
  ["a", "abbr", "acronym", "area", "article", "aside", "b", "bdi", "bdo",
   "blockquote", "br", "caption", "center", "cite", "code", "col",
   "colgroup", "data", "dd", "del", "details", "dfn", "div", "dl", "dt",
   "em", "figcaption", "figure", "footer", "h1", "h2", "h3", "h4", "h5",
   "h6", "header", "hgroup", "hr", "i", "img", "ins", "kbd", "li", "map",
   "mark", "nav", "ol", "p", "pre", "q", "rp", "rt", "rtc", "ruby", "s",
   "samp", "small", "span", "strike", "strong", "sub", "summary", "sup",
   "table", "tbody", "td", "th", "thead", "time", "tr", "tt", "u", "ul",
   "var", "wbr"].map String.toList

/-- Tags whose content the library removes entirely (its default). -/
def cleanContentTags : List (List Char) := [sl "script", sl "style"]

/-- The generic attributes of the ammonia defaults. -/
def genericAttrs : List (List Char) := [sl "lang", sl "title"]

/-- The tag-attribute policy set by `sanitize_html` (markdown.rs:412-417);
`Builder::tag_attributes` replaces the default map, so these are the only
tag-specific attributes. -/
def tagAttrsFor (t : List Char) : List (List Char) :=
  if t = sl "a" then [sl "data-page"]
  else if t = sl "span" then [sl "data-tag", sl "data-block-id", sl "id"]
  else if t = sl "div" then
    [sl "data-page", sl "data-callout-type", sl "data-lang", sl "data-diagram"]
  else if t = sl "button" then [sl "onclick", sl "aria-label"]
  else if t = sl "img" then [sl "src", sl "alt", sl "loading"]
  else []

/-- The per-tag class allowlist set by `sanitize_html` (markdown.rs:419-445),
including the fifteen callout color classes. -/
def allowedClassesFor (t : List Char) : List (List Char) :=
  if t = sl "a" then [sl "wiki-link"]
  else if t = sl "span" then
    [sl "inline-code", sl "bold", sl "italic", sl "strikethrough",
     sl "highlight", sl "fold-icon", sl "loading-icon"]
  else if t = sl "div" then
    [sl "obsidian-embed", sl "callout", sl "callout-header",
     sl "callout-content", sl "code-block", sl "code-header",
     sl "mermaid-diagram", sl "mermaid-loading", sl "mermaid-content",
     sl "callout-rosewater", sl "callout-flamingo", sl "callout-pink",
     sl "callout-mauve", sl "callout-red", sl "callout-maroon",
     sl "callout-peach", sl "callout-yellow", sl "callout-green",
     sl "callout-teal", sl "callout-sky", sl "callout-sapphire",
     sl "callout-blue", sl "callout-lavender", sl "callout-surface2"]
  else if t = sl "button" then [sl "callout-fold", sl "code-copy"]
  else if t = sl "code" then [sl "inline-code"]
  else if t = sl "mark" then [sl "obsidian-highlight"]
  else if t = sl "img" then [sl "obsidian-embed-image"]
  else []

/-- Split an attribute value into whitespace-separated class names. -/
def wordsAux : List Char → List Char → List (List Char)
  | cur, [] => if cur.isEmpty then [] else [cur.reverse]
  | cur, c :: cs =>
    if c.isWhitespace then
      if cur.isEmpty then wordsAux [] cs else cur.reverse :: wordsAux [] cs
    else wordsAux (c :: cur) cs

def wordsOf (v : List Char) : List (List Char) := wordsAux [] v

/-- Join class names with single spaces. -/
def joinSpace : List (List Char) → List Char
  | [] => []
  | [w] => w
  | w :: ws => w ++ ' ' :: joinSpace ws

/-- The `rel` attribute added by `link_rel(Some("noopener noreferrer"))`. -/
def relAttr : List Char × List Char := (sl "rel", sl "noopener noreferrer")

/-- Filter one attribute of a kept tag: the class attribute keeps only the
allowed class names of the tag (and is dropped when none survives); any
other attribute survives iff it is in the tag-attribute policy or generic. -/
def filterAttr (t : List Char) (a : List Char × List Char) :
    List (List Char × List Char) :=
  if a.1 = sl "class" then
    if ((wordsOf a.2).filter fun w => w ∈ allowedClassesFor t).isEmpty then []
    else [(sl "class", joinSpace ((wordsOf a.2).filter fun w => w ∈ allowedClassesFor t))]
  else if a.1 ∈ tagAttrsFor t ∨ a.1 ∈ genericAttrs then [a] else []

def filterAttrsFor (t : List Char) (attrs : List (List Char × List Char)) :
    List (List Char × List Char) :=
  attrs.foldr (fun a r => filterAttr t a ++ r) []

/-- A kept opening tag: filtered attributes, plus the configured `rel` on
anchors. -/
def keepOpen (n : List Char) (attrs : List (List Char × List Char)) : Tok :=
  .openTag n (filterAttrsFor n attrs ++ if n = sl "a" then [relAttr] else [])

/-- The allowlist filter over the token stream.  The numeric state is the
nesting depth inside `script`/`style` elements, whose content is removed;
at depth zero, allowed tags are kept with filtered attributes, disallowed
tags are dropped with their content preserved. -/
def filterToks : Nat → List Tok → List Tok
  | _, [] => []
  | d, .openTag n attrs :: ts =>
    if n ∈ cleanContentTags then filterToks (d + 1) ts
    else if d ≠ 0 then filterToks d ts
    else if n ∈ allowedTags then keepOpen n attrs :: filterToks 0 ts
    else filterToks 0 ts
  | d, .closeTag n :: ts =>
    if d ≠ 0 then
      if n ∈ cleanContentTags then filterToks (d - 1) ts else filterToks d ts
    else if n ∈ allowedTags then .closeTag n :: filterToks 0 ts
    else filterToks 0 ts
  | d, .text s :: ts =>
    if d ≠ 0 then filterToks d ts else .text s :: filterToks 0 ts

/-- Model of `sanitize_html` over character lists. -/
def sanitizeChars (cs : List Char) : List Char :=
  serToks (filterToks 0 (tokenize cs))

/-- Model of `sanitize_html` (markdown.rs:405-456). -/
def sanitize_html (html : String) : String :=
  (sanitizeChars html.toList).asString

/-! ## The structural parse and event transformation
(markdown.rs:87-157)

The external parser (pulldown-cmark) is modelled for the constructs the
verified properties exercise: blank-line separated paragraphs whose inline
content is raw HTML tags and text, and fenced code blocks.  Extensions that
do not affect these constructs (tables, footnotes, task lists, smart
punctuation, heading attributes) are not modelled. -/

inductive MdEvent
  | mdText (s : List Char)
  | mdHtml (s : List Char)
  | mdCode (s : List Char)
  | softBreak
  | startPara
  | endPara
  | startCodeFenced (lang : List Char)
  | startCodeIndented
  | endCodeBlock
deriving Repr, DecidableEq

/-- Prepend a character to the leading inline text event. -/
def inlinePush (ch : Char) : List MdEvent → List MdEvent
  | .mdText s :: es => .mdText (ch :: s) :: es
  | es => .mdText [ch] :: es

/-- Inline scan of a paragraph line: raw HTML tags become HTML events,
everything else is text. -/
def inlineGo : Nat → List Char → List MdEvent
  | _, [] => []
  | 0, s => [.mdText s]
  | f + 1, c :: cs =>
    if c = '<' then
      match parseTag (c :: cs) with
      | some (_, rest) =>
        .mdHtml ((c :: cs).take ((c :: cs).length - rest.length)) :: inlineGo f rest
      | none => inlinePush '<' (inlineGo f cs)
    else inlinePush c (inlineGo f cs)

/-- Split into lines at newlines (the separators are consumed). -/
def splitNl : List Char → List (List Char)
  | [] => [[]]
  | c :: cs =>
    if c = '\n' then [] :: splitNl cs
    else
      match splitNl cs with
      | t :: ts => (c :: t) :: ts
      | [] => [[c]]

/-- The info string of a fenced code block opener, trimmed. -/
def fenceLang (line : List Char) : Option (List Char) :=
  if "```".toList.isPrefixOf line then
    some ((((line.drop 3).dropWhile isSpaceChar).reverse.dropWhile isSpaceChar).reverse)
  else none

/-- Rejoin lines, each terminated by a newline. -/
def joinLines (ls : List (List Char)) : List Char :=
  ls.foldr (fun l r => l ++ '\n' :: r) []

/-- Inline events of a paragraph, soft breaks between lines. -/
def paraInlines : List (List Char) → List MdEvent
  | [] => []
  | [l] => inlineGo l.length l
  | l :: ls => inlineGo l.length l ++ .softBreak :: paraInlines ls

/-- Block structure: fenced code blocks and paragraphs separated by blank
lines.  The fuel is the number of lines. -/
def parseBlocks : Nat → List (List Char) → List MdEvent
  | _, [] => []
  | 0, _ => []
  | f + 1, line :: rest =>
    if line.isEmpty then parseBlocks f rest
    else
      match fenceLang line with
      | some lang =>
        .startCodeFenced lang
          :: .mdText (joinLines (rest.takeWhile fun l => !("```".toList.isPrefixOf l)))
          :: .endCodeBlock
          :: parseBlocks f
              (match rest.drop (rest.takeWhile fun l => !("```".toList.isPrefixOf l)).length with
               | _ :: r => r
               | [] => [])
      | none =>
        .startPara
          :: (paraInlines ((line :: rest).takeWhile fun l =>
                !l.isEmpty && (fenceLang l).isNone)
            ++ .endPara
              :: parseBlocks f
                  ((line :: rest).drop
                    ((line :: rest).takeWhile fun l =>
                      !l.isEmpty && (fenceLang l).isNone).length))

/-- The modelled structural parse. -/
def parseMarkdown (s : List Char) : List MdEvent :=
  parseBlocks (splitNl s).length (splitNl s)

/-- The code-block wrapper of `render_obsidian_markdown` (markdown.rs:114-128),
with the language spliced in and the display label defaulting to `"text"`. -/
def codeOpenHtml (lang : List Char) : List Char :=
  "<div class=\"code-block\" data-lang=\"".toList ++ lang
    ++ "\">\n                            <div class=\"code-header\">\n                                <span class=\"code-lang\">".toList
    ++ (if lang.isEmpty then "text".toList else lang)
    ++ "</span>\n                                <button class=\"code-copy\" onclick=\"copyCode(this)\" aria-label=\"Copy code\">\n                                    <span class=\"copy-icon\"></span>\n                                </button>\n                            </div>\n                            <pre><code class=\"language-".toList
    ++ lang ++ "\">".toList

/-- The event transformation loop of `render_obsidian_markdown`
(markdown.rs:103-145): code-block starts become the wrapper markup, text
inside a code block is HTML-escaped, inline code becomes an escaped
`inline-code` element, everything else passes through.  The boolean is
`in_code_block`, the list is `code_lang`. -/
def transformEvents : List MdEvent → Bool → List Char → List MdEvent
  | [], _, _ => []
  | e :: es, inCode, lang =>
    match e with
    | .startCodeFenced l => .mdHtml (codeOpenHtml l) :: transformEvents es true l
    | .startCodeIndented => .mdHtml (codeOpenHtml lang) :: transformEvents es true lang
    | .endCodeBlock => .mdHtml "</code></pre></div>".toList :: transformEvents es false []
    | .mdText t =>
      if inCode then .mdHtml (escapeChars t) :: transformEvents es inCode lang
      else .mdText t :: transformEvents es inCode lang
    | .mdCode c =>
      .mdHtml ("<code class=\"inline-code\">".toList ++ escapeChars c ++ "</code>".toList)
        :: transformEvents es inCode lang
    | other => other :: transformEvents es inCode lang

/-- The serializer text escape of the external markdown library. -/
def pdEscapeChar (c : Char) : List Char :=
  if c = '&' then "&amp;".toList
  else if c = '<' then "&lt;".toList
  else if c = '>' then "&gt;".toList
  else if c = '"' then "&quot;".toList
  else [c]

def pdEscape (s : List Char) : List Char :=
  s.foldr (fun c r => pdEscapeChar c ++ r) []

/-- Model of `pulldown_cmark::html::push_html` on the modelled events. -/
def pushHtml : List MdEvent → List Char
  | [] => []
  | e :: es =>
    (match e with
     | .mdText t => pdEscape t
     | .mdHtml h => h
     | .mdCode c => "<code>".toList ++ pdEscape c ++ "</code>".toList
     | .softBreak => ['\n']
     | .startPara => "<p>".toList
     | .endPara => "</p>\n".toList
     | .startCodeFenced l =>
       "<pre><code class=\"language-".toList ++ pdEscape l ++ "\">".toList
     | .startCodeIndented => "<pre><code>".toList
     | .endCodeBlock => "</code></pre>\n".toList) ++ pushHtml es

/-! ## The HTML postprocessors (markdown.rs:224-278) -/

/-- Model of `CalloutType` (markdown.rs:7-84); the icon strings of the
source file are empty, so only name and color are represented. -/
structure CalloutType where
  name : List Char
  color : List Char
deriving Repr, DecidableEq

/-- Model of `CalloutType::from_str`: case-insensitive lookup with a default
note classification on the `surface2` color for unknown labels. -/
def CalloutType.from_str (s : List Char) : CalloutType :=
  let low := s.map Char.toLower
  if low = sl "note" ∨ low = sl "info" then ⟨sl "note", sl "blue"⟩
  else if low = sl "tip" ∨ low = sl "hint" ∨ low = sl "important" then
    ⟨sl "tip", sl "teal"⟩
  else if low = sl "warning" ∨ low = sl "caution" ∨ low = sl "attention" then
    ⟨sl "warning", sl "yellow"⟩
  else if low = sl "danger" ∨ low = sl "error" then ⟨sl "danger", sl "red"⟩
  else if low = sl "success" ∨ low = sl "check" ∨ low = sl "done" then
    ⟨sl "success", sl "green"⟩
  else if low = sl "question" ∨ low = sl "help" ∨ low = sl "faq" then
    ⟨sl "question", sl "mauve"⟩
  else if low = sl "example" then ⟨sl "example", sl "lavender"⟩
  else if low = sl "quote" ∨ low = sl "cite" then ⟨sl "quote", sl "flamingo"⟩
  else if low = sl "bug" then ⟨sl "bug", sl "maroon"⟩
  else if low = sl "abstract" ∨ low = sl "summary" ∨ low = sl "tldr" then
    ⟨sl "abstract", sl "sky"⟩
  else if low = sl "code" ∨ low = sl "snippet" then ⟨sl "code", sl "peach"⟩
  else if low = sl "todo" ∨ low = sl "task" then ⟨sl "todo", sl "sapphire"⟩
  else ⟨sl "note", sl "surface2"⟩

/-- The replacement markup of a callout (markdown.rs:237-249). -/
def calloutHtml (ty : List Char) (title : Option (List Char))
    (content : List Char) : List Char :=
  "<div class=\"callout callout-".toList ++ (CalloutType.from_str ty).color
    ++ "\" data-callout-type=\"".toList ++ (CalloutType.from_str ty).name
    ++ "\">\n                <div class=\"callout-header\">\n                    <span class=\"callout-icon\"></span>\n                    <span class=\"callout-title\">".toList
    ++ title.getD ty
    ++ "</span>\n                    <button class=\"callout-fold\" onclick=\"toggleCallout(this)\" aria-label=\"Toggle callout\">\n                        <span class=\"fold-icon\"></span>\n                    </button>\n                </div>\n                <div class=\"callout-content\">".toList
    ++ content
    ++ "</div>\n            </div>".toList

/-- Shortest split before `"</p>"` with no newline in between (the
non-greedy `(.+?)</p>` of the callout regex). -/
def pEndSplit : List Char → Option (List Char × List Char)
  | [] => none
  | c :: rest =>
    if "</p>".toList.isPrefixOf (c :: rest) then
      some ([], (c :: rest).drop 4)
    else if c = '\n' then none
    else
      match pEndSplit rest with
      | some (a, b) => some (c :: a, b)
      | none => none

/-- Shortest split before `"</blockquote>"` (the non-greedy body capture). -/
def bqSplit : List Char → Option (List Char × List Char)
  | [] => none
  | c :: rest =>
    if "</blockquote>".toList.isPrefixOf (c :: rest) then
      some ([], (c :: rest).drop "</blockquote>".length)
    else
      match bqSplit rest with
      | some (a, b) => some (c :: a, b)
      | none => none

/-- Attempt the callout match on the text following `"<blockquote>"`:
`\s*<p>[!type]` with an optional same-line title, then the body up to the
closing blockquote.  The whitespace before an optional title is taken
greedily, which coincides with the regex on every input the pipeline
produces. -/
def calloutTry (s : List Char) : Option (List Char × List Char) :=
  if "<p>[!".toList.isPrefixOf (s.dropWhile Char.isWhitespace) then
    calloutAfterP ((s.dropWhile Char.isWhitespace).drop 5)
  else none
where
  calloutAfterP (s2 : List Char) : Option (List Char × List Char) :=
    if (s2.takeWhile fun c => c ≠ ']').isEmpty then none
    else
      match s2.drop (s2.takeWhile fun c => c ≠ ']').length with
      | ']' :: s3 =>
        match
          (if "</p>".toList.isPrefixOf s3 then some (none, s3.drop 4)
           else if (s3.takeWhile Char.isWhitespace).isEmpty then none
           else
             match pEndSplit (s3.dropWhile Char.isWhitespace) with
             | some (t, r) => if t.isEmpty then none else some (some t, r)
             | none => none :
            Option (Option (List Char) × List Char)) with
        | some (title, s4) =>
          match bqSplit s4 with
          | some (content, rest) =>
            some (calloutHtml (s2.takeWhile fun c => c ≠ ']') title content, rest)
          | none => none
        | none => none
      | _ => none

/-- Scanner of `postprocess_callouts` (markdown.rs:225-252). -/
def calloutGo : Nat → List Char → List Char
  | 0, s => s
  | _ + 1, [] => []
  | f + 1, c :: cs =>
    if "<blockquote>".toList.isPrefixOf (c :: cs) then
      match calloutTry ((c :: cs).drop "<blockquote>".length) with
      | some (rep, rest) => rep ++ calloutGo f rest
      | none => c :: calloutGo f cs
    else c :: calloutGo f cs

/-- Shortest split before `"=="` with no newline in between (the non-greedy
highlight capture `==(.*?)==`, which may be empty). -/
def hlSplit : List Char → Option (List Char × List Char)
  | '=' :: '=' :: rest => some ([], rest)
  | [] => none
  | c :: rest =>
    if c = '\n' then none
    else
      match hlSplit rest with
      | some (a, b) => some (c :: a, b)
      | none => none

/-- Scanner of `postprocess_highlights` (markdown.rs:255-260). -/
def hlGo : Nat → List Char → List Char
  | 0, s => s
  | _ + 1, [] => []
  | f + 1, '=' :: '=' :: cs =>
    match hlSplit cs with
    | some (content, rest) =>
      "<mark class=\"obsidian-highlight\">".toList ++ content
        ++ "</mark>".toList ++ hlGo f rest
    | none => '=' :: hlGo f ('=' :: cs)
  | f + 1, c :: cs => c :: hlGo f cs

/-- Shortest split before `"</code></pre>"` (the non-greedy mermaid body). -/
def mmSplit : List Char → Option (List Char × List Char)
  | [] => none
  | c :: rest =>
    if "</code></pre>".toList.isPrefixOf (c :: rest) then
      some ([], (c :: rest).drop "</code></pre>".length)
    else
      match mmSplit rest with
      | some (a, b) => some (c :: a, b)
      | none => none

/-- The replacement markup of a mermaid diagram (markdown.rs:269-274). -/
def mermaidDivHtml (diagram : List Char) : List Char :=
  "<div class=\"mermaid-diagram\" data-diagram=\"".toList
    ++ escapeChars diagram
    ++ "\">\n                    <div class=\"mermaid-loading\"><span class=\"loading-icon\"></span> Rendering diagram...</div>\n                    <div class=\"mermaid-content\" style=\"display:none;\">".toList
    ++ diagram
    ++ "</div>\n                </div>".toList

/-- Scanner of `postprocess_mermaid_diagrams` (markdown.rs:263-278). -/
def mmGo : Nat → List Char → List Char
  | 0, s => s
  | _ + 1, [] => []
  | f + 1, c :: cs =>
    if "<pre><code class=\"language-mermaid\">".toList.isPrefixOf (c :: cs) then
      match mmSplit ((c :: cs).drop "<pre><code class=\"language-mermaid\">".length) with
      | some (diagram, rest) => mermaidDivHtml diagram ++ mmGo f rest
      | none => c :: mmGo f cs
    else c :: mmGo f cs

/-- Model of `postprocess_callouts` (markdown.rs:225-252). -/
def postprocess_callouts (html : List Char) : List Char :=
  calloutGo html.length html

/-- Model of `postprocess_highlights` (markdown.rs:255-260). -/
def postprocess_highlights (html : List Char) : List Char :=
  hlGo html.length html

/-- Model of `postprocess_mermaid_diagrams` (markdown.rs:263-278). -/
def postprocess_mermaid_diagrams (html : List Char) : List Char :=
  mmGo html.length html

/-- The HTML reaching the sanitizer: preprocess, structural parse, event
transformation, serialization, and the three postprocessors in source
order. -/
def postprocessedHtml (content : String) : List Char :=
  postprocess_mermaid_diagrams (postprocess_highlights (postprocess_callouts
    (pushHtml (transformEvents
      (parseMarkdown ( preprocess_obsidian_syntax content).toList) false []))))

/-- Model of `render_obsidian_markdown` (markdown.rs:87-157). -/
def render_obsidian_markdown (content : String) : String :=
  (sanitizeChars (postprocessedHtml content)).asString

/-! ## Length bounds and fuel irrelevance of the tokenizer -/

theorem readTextChar_snd_le (c : Char) (rest : List Char) :
    (readTextChar c rest).2.length ≤ rest.length := by
  unfold readTextChar
  repeat' split
  all_goals simp [List.length_drop]

theorem readAttrValue_le :
    ∀ (fuel : Nat) (s v r : List Char), readAttrValue fuel s = some (v, r) →
      r.length ≤ s.length := by
  intro fuel
  induction fuel with
  | zero =>
    intro s v r h
    match s, h with
    | c :: rest, h =>
      simp only [readAttrValue] at h
      split at h
      · obtain ⟨h1, h2⟩ := Prod.mk.injEq .. ▸ (Option.some.injEq _ _ ▸ h)
        subst h2
        simp
      · exact absurd h (by simp)
  | succ f ih =>
    intro s v r h
    match s, h with
    | c :: rest, h =>
      simp only [readAttrValue] at h
      split at h
      · obtain ⟨h1, h2⟩ := Prod.mk.injEq .. ▸ (Option.some.injEq _ _ ▸ h)
        subst h2
        simp
      · match hrec : readAttrValue f (readTextChar c rest).2 with
        | some (v2, r2) =>
          rw [hrec] at h
          obtain ⟨h1, h2⟩ := Prod.mk.injEq .. ▸ (Option.some.injEq _ _ ▸ h)
          subst h2
          calc r2.length ≤ (readTextChar c rest).2.length := ih _ _ _ hrec
            _ ≤ rest.length := readTextChar_snd_le c rest
            _ ≤ (c :: rest).length := by simp
        | none => rw [hrec] at h; exact absurd h (by simp)

theorem dropWhile_length_le (p : Char → Bool) (s : List Char) :
    (s.dropWhile p).length ≤ s.length := by
  induction s with
  | nil => simp
  | cons c cs ih =>
    rw [List.dropWhile_cons]
    split
    · exact Nat.le_trans ih (by simp)
    · simp

theorem attrsFinish_le {nm v : List Char} {o : AttrsRes}
    {attrs : List (List Char × List Char)} {r : List Char}
    (h : attrsFinish nm v o = some (attrs, r)) :
    ∃ attrs0, o = some (attrs0, r) := by
  match o, h with
  | some (attrs0, r4), h =>
    simp only [attrsFinish] at h
    obtain ⟨h1, h2⟩ := Prod.mk.injEq .. ▸ (Option.some.injEq _ _ ▸ h)
    exact ⟨attrs0, by rw [h2]⟩
  | none, h => exact absurd h (by simp [attrsFinish])

theorem attrsValue_le {next : List Char → AttrsRes}
    (hnext : ∀ s attrs r, next s = some (attrs, r) → r.length ≤ s.length)
    {nm s : List Char} {attrs : List (List Char × List Char)} {r : List Char}
    (h : attrsValue next nm (readAttrValue s.length s) = some (attrs, r)) :
    r.length ≤ s.length := by
  match hrv : readAttrValue s.length s, h with
  | some (v, r3), h =>
    simp only [attrsValue] at h
    obtain ⟨attrs0, ho⟩ := attrsFinish_le h
    calc r.length ≤ r3.length := hnext _ _ _ ho
      _ ≤ s.length := readAttrValue_le _ _ _ _ hrv
  | none, h => exact absurd h (by simp [attrsValue])

theorem attrsTail_le {next : List Char → AttrsRes}
    (hnext : ∀ s attrs r, next s = some (attrs, r) → r.length ≤ s.length)
    {nm s : List Char} {attrs : List (List Char × List Char)} {r : List Char}
    (h : attrsTail next nm s = some (attrs, r)) :
    r.length ≤ s.length := by
  match s, h with
  | e :: q :: r2, h =>
    simp only [attrsTail] at h
    split at h
    · split at h
      · have := attrsValue_le hnext h
        simp only [List.length_cons]
        omega
      · exact absurd h (by simp)
    · exact absurd h (by simp)
  | [], h => exact absurd h (by simp [attrsTail])
  | [e], h => exact absurd h (by simp [attrsTail])

theorem attrsSlash_le {rest1 : List Char}
    {attrs : List (List Char × List Char)} {r : List Char}
    (h : attrsSlash rest1 = some (attrs, r)) : r.length < rest1.length := by
  match rest1, h with
  | r0 :: rr, h =>
    simp only [attrsSlash] at h
    split at h
    · obtain ⟨h1, h2⟩ := Prod.mk.injEq .. ▸ (Option.some.injEq _ _ ▸ h)
      subst h2
      simp
    · exact absurd h (by simp)
  | [], h => exact absurd h (by simp [attrsSlash])

theorem parseAttrsStep_le {next : List Char → AttrsRes}
    (hnext : ∀ s attrs r, next s = some (attrs, r) → r.length ≤ s.length)
    {s : List Char} {attrs : List (List Char × List Char)} {r : List Char}
    (h : parseAttrsStep next s = some (attrs, r)) :
    r.length ≤ s.length := by
  match s, h with
  | c1 :: rest1, h =>
    simp only [parseAttrsStep] at h
    split at h
    · obtain ⟨h1, h2⟩ := Prod.mk.injEq .. ▸ (Option.some.injEq _ _ ▸ h)
      subst h2
      simp
    · split at h
      · have := attrsSlash_le h
        simp only [List.length_cons]
        omega
      · split at h
        · exact absurd h (by simp)
        · have htl := attrsTail_le hnext h
          have hdl : ((c1 :: rest1).drop
              ((c1 :: rest1).takeWhile isNameChar).length).length ≤
              (c1 :: rest1).length := by simp
          omega
  | [], h => exact absurd h (by simp [parseAttrsStep])

theorem parseAttrs_le :
    ∀ (fuel : Nat) (s : List Char) (attrs : List (List Char × List Char))
      (r : List Char), parseAttrs fuel s = some (attrs, r) →
      r.length ≤ s.length := by
  intro fuel
  induction fuel with
  | zero =>
    intro s attrs r h
    exact absurd h (by simp [parseAttrs])
  | succ f ih =>
    intro s attrs r h
    simp only [parseAttrs] at h
    have := parseAttrsStep_le (fun s' a' r' hh => ih s' a' r' hh) h
    calc r.length ≤ (s.dropWhile isSpaceChar).length := this
      _ ≤ s.length := dropWhile_length_le _ _

theorem closeFinish_le {nm s r : List Char} {t : Tok}
    (h : closeFinish nm s = some (t, r)) : r.length < s.length := by
  match s, h with
  | g :: rr, h =>
    simp only [closeFinish] at h
    split at h
    · obtain ⟨h1, h2⟩ := Prod.mk.injEq .. ▸ (Option.some.injEq _ _ ▸ h)
      subst h2
      simp
    · exact absurd h (by simp)
  | [], h => exact absurd h (by simp [closeFinish])

theorem parseClose_le {rest r : List Char} {t : Tok}
    (h : parseClose rest = some (t, r)) : r.length ≤ rest.length := by
  simp only [parseClose] at h
  split at h
  · exact absurd h (by simp)
  · have hcf := closeFinish_le h
    have : (rest.drop (rest.takeWhile isNameChar).length).length ≤ rest.length := by
      simp
    omega

theorem openFinish_some {nm : List Char} {o : AttrsRes} {t : Tok} {r : List Char}
    (h : openFinish nm o = some (t, r)) :
    ∃ attrs, o = some (attrs, r) := by
  match o, h with
  | some (attrs, r4), h =>
    simp only [openFinish] at h
    obtain ⟨h1, h2⟩ := Prod.mk.injEq .. ▸ (Option.some.injEq _ _ ▸ h)
    exact ⟨attrs, by rw [h2]⟩
  | none, h => exact absurd h (by simp [openFinish])

theorem parseOpen_le {rest r : List Char} {t : Tok}
    (h : parseOpen rest = some (t, r)) : r.length ≤ rest.length := by
  simp only [parseOpen] at h
  split at h
  · exact absurd h (by simp)
  · obtain ⟨attrs, ho⟩ := openFinish_some h
    have hb := parseAttrs_le _ _ _ _ ho
    have : (rest.drop (rest.takeWhile isNameChar).length).length ≤ rest.length := by
      simp
    omega

theorem parseTag_le {c : Char} {cs rest : List Char} {t : Tok}
    (h : parseTag (c :: cs) = some (t, rest)) : rest.length ≤ cs.length := by
  simp only [parseTag] at h
  split at h
  · match cs, h with
    | d :: cs2, h =>
      simp only [parseTagInner] at h
      split at h
      · have := parseClose_le h
        simp only [List.length_cons]
        omega
      · exact parseOpen_le h
    | [], h => exact absurd h (by simp [parseTagInner])
  · exact absurd h (by simp)

theorem tokGo_congr :
    ∀ (n : Nat) (s : List Char), s.length ≤ n →
      ∀ (m : Nat), s.length ≤ m → tokGo n s = tokGo m s := by
  intro n
  induction n with
  | zero =>
    intro s hs m hm
    have : s = [] := List.eq_nil_of_length_eq_zero (Nat.le_zero.mp hs)
    subst this
    cases m <;> rfl
  | succ f ih =>
    intro s hs m hm
    cases s with
    | nil => cases m <;> rfl
    | cons c cs =>
      simp only [List.length_cons] at hs hm
      match m, hm with
      | g + 1, hm =>
        simp only [tokGo]
        by_cases hc : c = '<'
        · rw [if_pos hc, if_pos hc]
          rcases hp : parseTag (c :: cs) with _ | ⟨t, rest⟩
          · simp only [hp]
            rw [ih cs (by omega) g (by omega)]
          · simp only [hp]
            have hr : rest.length ≤ cs.length := parseTag_le hp
            rw [ih rest (by omega) g (by omega)]
        · rw [if_neg hc, if_neg hc]
          have hr := readTextChar_snd_le c cs
          rw [ih (readTextChar c cs).2 (by omega) g (by omega)]

theorem tokenize_nil : tokenize [] = [] := rfl

theorem tokenize_cons_text {c : Char} (cs : List Char) (hc : c ≠ '<') :
    tokenize (c :: cs) =
      pushChar (readTextChar c cs).1 (tokenize (readTextChar c cs).2) := by
  have hr := readTextChar_snd_le c cs
  unfold tokenize
  simp only [List.length_cons, tokGo, if_neg hc]
  rw [tokGo_congr cs.length (readTextChar c cs).2 hr
    ((readTextChar c cs).2.length) (Nat.le_refl _)]

theorem tokenize_cons_tag {c : Char} {cs rest : List Char} {t : Tok}
    (hp : parseTag (c :: cs) = some (t, rest)) :
    tokenize (c :: cs) = t :: tokenize rest := by
  have hc : c = '<' := by
    by_contra hcn
    simp only [parseTag, if_neg hcn] at hp
    exact Option.noConfusion hp
  unfold tokenize
  simp only [List.length_cons, tokGo, if_pos hc]
  subst hc
  simp only [hp]
  have hr := parseTag_le hp
  rw [tokGo_congr cs.length rest hr rest.length (Nat.le_refl _)]

theorem tokenize_cons_lt_none {cs : List Char}
    (hn : parseTag ('<' :: cs) = none) :
    tokenize ('<' :: cs) = pushChar '<' (tokenize cs) := by
  unfold tokenize
  simp only [List.length_cons, tokGo]
  rw [if_pos (by trivial), hn]

/-! ## Round trip: tokenizing serialized sanitizer output -/

theorem readTextChar_amp (r : List Char) :
    readTextChar '&' ("amp;".toList ++ r) = ('&', r) := by
  have hp : ("amp;".toList.isPrefixOf ("amp;".toList ++ r)) = true := by
    simp [List.isPrefixOf]
  simp [readTextChar, hp, List.drop_left' (show "amp;".toList.length = 4 from rfl)]

theorem readTextChar_ltEnt (r : List Char) :
    readTextChar '&' ("lt;".toList ++ r) = ('<', r) := by
  have h1 : ("amp;".toList.isPrefixOf ("lt;".toList ++ r)) = false := by
    simp [List.isPrefixOf]
  have h2 : ("lt;".toList.isPrefixOf ("lt;".toList ++ r)) = true := by
    simp [List.isPrefixOf]
  simp [readTextChar, h1, h2, List.drop_left' (show "lt;".toList.length = 3 from rfl)]

theorem readTextChar_gtEnt (r : List Char) :
    readTextChar '&' ("gt;".toList ++ r) = ('>', r) := by
  have h1 : ("amp;".toList.isPrefixOf ("gt;".toList ++ r)) = false := by
    simp [List.isPrefixOf]
  have h2 : ("lt;".toList.isPrefixOf ("gt;".toList ++ r)) = false := by
    simp [List.isPrefixOf]
  have h3 : ("gt;".toList.isPrefixOf ("gt;".toList ++ r)) = true := by
    simp [List.isPrefixOf]
  simp [readTextChar, h1, h2, h3,
    List.drop_left' (show "gt;".toList.length = 3 from rfl)]

theorem readTextChar_quotEnt (r : List Char) :
    readTextChar '&' ("quot;".toList ++ r) = ('"', r) := by
  have h1 : ("amp;".toList.isPrefixOf ("quot;".toList ++ r)) = false := by
    simp [List.isPrefixOf]
  have h2 : ("lt;".toList.isPrefixOf ("quot;".toList ++ r)) = false := by
    simp [List.isPrefixOf]
  have h3 : ("gt;".toList.isPrefixOf ("quot;".toList ++ r)) = false := by
    simp [List.isPrefixOf]
  have h4 : ("quot;".toList.isPrefixOf ("quot;".toList ++ r)) = true := by
    simp [List.isPrefixOf]
  simp [readTextChar, h1, h2, h3, h4,
    List.drop_left' (show "quot;".toList.length = 5 from rfl)]

theorem readTextChar_raw {c : Char} (r : List Char) (h : c ≠ '&') :
    readTextChar c r = (c, r) := by
  simp [readTextChar, h]

/-- Merging a character list into the leading text token. -/
def pushText (s : List Char) (ts : List Tok) : List Tok := s.foldr pushChar ts

theorem tokenize_escTextChar (c : Char) (r : List Char) :
    tokenize (escTextChar c ++ r) = pushChar c (tokenize r) := by
  by_cases h1 : c = '&'
  · subst h1
    rw [show escTextChar '&' ++ r = '&' :: ("amp;".toList ++ r) from rfl]
    rw [tokenize_cons_text _ (by decide), readTextChar_amp]
  · by_cases h2 : c = '<'
    · subst h2
      rw [show escTextChar '<' ++ r = '&' :: ("lt;".toList ++ r) from rfl]
      rw [tokenize_cons_text _ (by decide), readTextChar_ltEnt]
    · by_cases h3 : c = '>'
      · subst h3
        rw [show escTextChar '>' ++ r = '&' :: ("gt;".toList ++ r) from rfl]
        rw [tokenize_cons_text _ (by decide), readTextChar_gtEnt]
      · have he : escTextChar c ++ r = c :: r := by
          simp [escTextChar, h1, h2, h3]
        rw [he, tokenize_cons_text _ h2, readTextChar_raw _ h1]

theorem tokenize_escText (s r : List Char) :
    tokenize (escText s ++ r) = pushText s (tokenize r) := by
  induction s with
  | nil => rfl
  | cons c s' ih =>
    rw [show escText (c :: s') ++ r = escTextChar c ++ (escText s' ++ r) from by
      simp [escText]]
    rw [tokenize_escTextChar, ih]
    rfl

theorem escAttr_len_ge (v : List Char) : v.length ≤ (escAttr v).length := by
  induction v with
  | nil => simp [escAttr]
  | cons c v' ih =>
    have : escAttr (c :: v') = escAttrChar c ++ escAttr v' := by simp [escAttr]
    rw [this, List.length_append]
    have hc : 1 ≤ (escAttrChar c).length := by
      unfold escAttrChar
      repeat' split
      all_goals simp
    simp only [List.length_cons]
    omega

theorem readAttrValue_esc (v : List Char) :
    ∀ (fuel : Nat) (r : List Char), v.length ≤ fuel →
      readAttrValue fuel (escAttr v ++ '"' :: r) = some (v, r) := by
  induction v with
  | nil =>
    intro fuel r _
    rw [show escAttr [] ++ '"' :: r = '"' :: r from rfl]
    cases fuel <;> simp [readAttrValue]
  | cons c v' ih =>
    intro fuel r h
    match fuel, h with
    | f + 1, h =>
      have hf : v'.length ≤ f := by simp at h; omega
      by_cases h1 : c = '&'
      · subst h1
        rw [show escAttr ('&' :: v') ++ '"' :: r
            = '&' :: ("amp;".toList ++ (escAttr v' ++ '"' :: r)) from by
          simp [escAttr, escAttrChar]]
        simp only [readAttrValue, if_neg (by decide : ¬ ('&' : Char) = '"')]
        rw [readTextChar_amp, ih f r hf]
      · by_cases h2 : c = '"'
        · subst h2
          rw [show escAttr ('"' :: v') ++ '"' :: r
              = '&' :: ("quot;".toList ++ (escAttr v' ++ '"' :: r)) from by
            simp [escAttr, escAttrChar]]
          simp only [readAttrValue, if_neg (by decide : ¬ ('&' : Char) = '"')]
          rw [readTextChar_quotEnt, ih f r hf]
        · rw [show escAttr (c :: v') ++ '"' :: r
              = c :: (escAttr v' ++ '"' :: r) from by
            simp [escAttr, escAttrChar, h1, h2]]
          simp only [readAttrValue, if_neg h2]
          rw [readTextChar_raw _ h1, ih f r hf]

theorem nameChar_not_space {c : Char} (h : isNameChar c = true) :
    isSpaceChar c = false := by
  cases hs : isSpaceChar c with
  | false => rfl
  | true =>
    exfalso
    simp only [isSpaceChar, Bool.or_eq_true, decide_eq_true_eq] at hs
    rcases hs with ((h1 | h1) | h1) | h1 <;> subst h1 <;> simp [isNameChar] at h

theorem serAttrs_len_ge (attrs : List (List Char × List Char)) :
    attrs.length ≤ (serAttrs attrs).length := by
  induction attrs with
  | nil => simp [serAttrs]
  | cons a attrs' ih =>
    have : serAttrs (a :: attrs') = serAttr a ++ serAttrs attrs' := by
      simp [serAttrs]
    rw [this, List.length_append]
    have : 1 ≤ (serAttr a).length := by simp [serAttr]
    simp only [List.length_cons]
    omega

theorem nameChar_facts {c : Char} (h : isNameChar c = true) :
    c ≠ '>' ∧ c ≠ '/' := by
  constructor <;> intro he <;> subst he <;> exact absurd h (by decide)

theorem parseAttrs_ser (attrs : List (List Char × List Char)) :
    ∀ (fuel : Nat) (r : List Char), attrs.length < fuel →
      (∀ a ∈ attrs, a.1 ≠ [] ∧ a.1.all isNameChar = true) →
      parseAttrs fuel (serAttrs attrs ++ '>' :: r) = some (attrs, r) := by
  induction attrs with
  | nil =>
    intro fuel r hf _
    match fuel, hf with
    | f + 1, _ =>
      rw [show serAttrs [] ++ '>' :: r = '>' :: r from rfl]
      simp only [parseAttrs]
      rw [show ('>' :: r).dropWhile isSpaceChar = '>' :: r from by
        rw [List.dropWhile_cons, if_neg (by decide)]]
      simp [parseAttrsStep]
  | cons a attrs' ih =>
    intro fuel r hf hwf
    match fuel, hf with
    | f + 1, hf =>
      obtain ⟨hne, hnm⟩ := hwf a (List.mem_cons_self a attrs')
      rcases ha : a.1 with _ | ⟨x, xs⟩
      · exact absurd ha hne
      have hxn : isNameChar x = true := by
        rw [ha] at hnm
        simp only [List.all_cons, Bool.and_eq_true] at hnm
        exact hnm.1
      have hser : serAttrs (a :: attrs') ++ '>' :: r
          = ' ' :: (x :: (xs ++ '=' :: '"' ::
            (escAttr a.2 ++ '"' :: (serAttrs attrs' ++ '>' :: r)))) := by
        simp [serAttrs, serAttr, ha]
      rw [hser]
      simp only [parseAttrs]
      have hd1 : (' ' :: (x :: (xs ++ '=' :: '"' ::
          (escAttr a.2 ++ '"' :: (serAttrs attrs' ++ '>' :: r))))).dropWhile isSpaceChar
          = x :: (xs ++ '=' :: '"' ::
            (escAttr a.2 ++ '"' :: (serAttrs attrs' ++ '>' :: r))) := by
        rw [List.dropWhile_cons, if_pos (by decide), List.dropWhile_cons,
          if_neg (by rw [nameChar_not_space hxn]; exact Bool.noConfusion)]
      rw [hd1]
      simp only [parseAttrsStep]
      rw [if_neg (nameChar_facts hxn).1, if_neg (nameChar_facts hxn).2]
      have htake : (x :: (xs ++ '=' :: '"' ::
          (escAttr a.2 ++ '"' :: (serAttrs attrs' ++ '>' :: r)))).takeWhile isNameChar
          = x :: xs := by
        have := takeWhile_append_of_stop (x :: xs)
          ('"' :: (escAttr a.2 ++ '"' :: (serAttrs attrs' ++ '>' :: r)))
          (by rw [← ha]; exact hnm) (by decide : isNameChar '=' = false)
        simpa using this
      rw [htake]
      rw [if_neg (by simp)]
      rw [show (x :: (xs ++ '=' :: '"' ::
          (escAttr a.2 ++ '"' :: (serAttrs attrs' ++ '>' :: r)))).drop (x :: xs).length
          = '=' :: '"' :: (escAttr a.2 ++ '"' :: (serAttrs attrs' ++ '>' :: r)) from by
        rw [show x :: (xs ++ '=' :: '"' ::
            (escAttr a.2 ++ '"' :: (serAttrs attrs' ++ '>' :: r)))
            = (x :: xs) ++ ('=' :: '"' ::
              (escAttr a.2 ++ '"' :: (serAttrs attrs' ++ '>' :: r))) from rfl]
        exact List.drop_left' rfl]
      simp only [attrsTail, if_pos rfl]
      have hval := readAttrValue_esc a.2
        (escAttr a.2 ++ '"' :: (serAttrs attrs' ++ '>' :: r)).length
        (serAttrs attrs' ++ '>' :: r)
        (by
          have := escAttr_len_ge a.2
          simp only [List.length_append, List.length_cons]
          omega)
      rw [hval]
      simp only [attrsValue]
      rw [ih f r (by simp only [List.length_cons] at hf; omega)
        (fun b hb => hwf b (List.mem_cons_of_mem a hb))]
      simp only [attrsFinish]
      simp
      rw [← ha]

theorem serAttrs_head (attrs : List (List Char × List Char)) (r : List Char) :
    ∃ y T, serAttrs attrs ++ '>' :: r = y :: T ∧ isNameChar y = false := by
  cases attrs with
  | nil => exact ⟨'>', r, rfl, by decide⟩
  | cons b bs =>
    refine ⟨' ', b.1 ++ '=' :: '"' :: (escAttr b.2 ++ '"' :: (serAttrs bs ++ '>' :: r)),
      ?_, by decide⟩
    simp [serAttrs, serAttr]

theorem parseTag_ser_open (n : List Char) (attrs : List (List Char × List Char))
    (r : List Char) (hn1 : n ≠ []) (hn2 : n.all isNameChar = true)
    (hattrs : ∀ a ∈ attrs, a.1 ≠ [] ∧ a.1.all isNameChar = true) :
    parseTag ('<' :: (n ++ (serAttrs attrs ++ '>' :: r)))
      = some (.openTag n attrs, r) := by
  rcases n with _ | ⟨x, xs⟩
  · exact absurd rfl hn1
  have hxn : isNameChar x = true := by
    simp only [List.all_cons, Bool.and_eq_true] at hn2
    exact hn2.1
  obtain ⟨y, T, hT, hy⟩ := serAttrs_head attrs r
  have hcons : (x :: xs) ++ (serAttrs attrs ++ '>' :: r)
      = x :: (xs ++ (y :: T)) := by rw [hT]; rfl
  rw [hcons]
  simp only [parseTag]
  simp only [parseTagInner]
  rw [if_neg (nameChar_facts hxn).2]
  simp only [parseOpen]
  have htake : (x :: (xs ++ y :: T)).takeWhile isNameChar = x :: xs := by
    have := takeWhile_append_of_stop (x := y) (x :: xs) T hn2 hy
    simpa using this
  rw [htake]
  rw [if_neg (show ¬((x :: xs).isEmpty = true) from by simp)]
  have hdrop : (x :: (xs ++ y :: T)).drop (x :: xs).length = y :: T := by
    rw [show x :: (xs ++ y :: T) = (x :: xs) ++ (y :: T) from rfl]
    exact List.drop_left' rfl
  rw [hdrop, ← hT]
  rw [parseAttrs_ser attrs _ r ?_ hattrs]
  · simp [openFinish]
  · have h1 := serAttrs_len_ge attrs
    have h5 : (x :: (xs ++ (serAttrs attrs ++ '>' :: r))).length
        = xs.length + (serAttrs attrs).length + r.length + 2 := by
      simp only [List.length_cons, List.length_append]
      omega
    omega

theorem parseTag_ser_close (n : List Char) (r : List Char)
    (hn1 : n ≠ []) (hn2 : n.all isNameChar = true) :
    parseTag ('<' :: '/' :: (n ++ '>' :: r)) = some (.closeTag n, r) := by
  simp only [parseTag]
  simp only [parseTagInner]
  simp only [parseClose]
  rcases n with _ | ⟨x, xs⟩
  · exact absurd rfl hn1
  have htake : ((x :: xs) ++ '>' :: r).takeWhile isNameChar = x :: xs :=
    takeWhile_append_of_stop (x :: xs) r hn2 (by decide)
  rw [htake]
  rw [if_neg (show ¬((x :: xs).isEmpty = true) from by simp)]
  have hdrop : ((x :: xs) ++ '>' :: r).drop (x :: xs).length = '>' :: r :=
    List.drop_left' rfl
  rw [hdrop]
  simp [closeFinish]

/-- Well-formed token: tag and attribute names are nonempty name-character
runs (attribute values and text are unrestricted). -/
def wfTok : Tok → Prop
  | .text _ => True
  | .openTag n attrs =>
    (n ≠ [] ∧ n.all isNameChar = true) ∧
      ∀ a ∈ attrs, a.1 ≠ [] ∧ a.1.all isNameChar = true
  | .closeTag n => n ≠ [] ∧ n.all isNameChar = true

/-- Normalization of a token stream: adjacent and empty text tokens are
merged, which is what re-tokenizing the serialized stream produces. -/
def normToks : List Tok → List Tok
  | [] => []
  | .text s :: ts => pushText s (normToks ts)
  | t :: ts => t :: normToks ts

theorem tokenize_serToks (ts : List Tok) (h : ∀ t ∈ ts, wfTok t) :
    tokenize (serToks ts) = normToks ts := by
  induction ts with
  | nil => rfl
  | cons t ts' ih =>
    have hts' : ∀ u ∈ ts', wfTok u := fun u hu => h u (List.mem_cons_of_mem t hu)
    have hre := ih hts'
    cases t with
    | text s =>
      show tokenize (escText s ++ serToks ts') = normToks (.text s :: ts')
      rw [tokenize_escText, hre]
      rfl
    | openTag n attrs =>
      obtain ⟨⟨hn1, hn2⟩, hattrs⟩ := h _ (List.mem_cons_self _ _)
      show tokenize ('<' :: ((n ++ serAttrs attrs ++ ['>']) ++ serToks ts'))
        = .openTag n attrs :: normToks ts'
      have hsh : (n ++ serAttrs attrs ++ ['>']) ++ serToks ts'
          = n ++ (serAttrs attrs ++ '>' :: serToks ts') := by
        simp
      rw [hsh]
      rw [tokenize_cons_tag (parseTag_ser_open n attrs (serToks ts') hn1 hn2 hattrs)]
      rw [hre]
    | closeTag n =>
      obtain ⟨hn1, hn2⟩ := h _ (List.mem_cons_self _ _)
      show tokenize ('<' :: '/' :: ((n ++ ['>']) ++ serToks ts'))
        = .closeTag n :: normToks ts'
      have hsh : (n ++ ['>']) ++ serToks ts' = n ++ '>' :: serToks ts' := by
        simp
      rw [hsh]
      rw [tokenize_cons_tag (parseTag_ser_close n (serToks ts') hn1 hn2)]
      rw [hre]

/-! ## Properties of the class-name splitting -/

theorem wordsAux_wf (cs : List Char) :
    ∀ (cur : List Char), (∀ c ∈ cur, c.isWhitespace = false) →
      ∀ w ∈ wordsAux cur cs, w ≠ [] ∧ ∀ c ∈ w, c.isWhitespace = false := by
  induction cs with
  | nil =>
    intro cur hcur w hw
    simp only [wordsAux] at hw
    split at hw
    · simp at hw
    · rename_i hne
      simp only [List.mem_singleton] at hw
      subst hw
      constructor
      · intro hnil
        have : cur = [] := by simpa using congrArg List.reverse hnil
        rw [this] at hne
        simp at hne
      · intro c hc
        exact hcur c (List.mem_reverse.mp hc)
  | cons c cs ih =>
    intro cur hcur w hw
    simp only [wordsAux] at hw
    by_cases hcw : c.isWhitespace
    · rw [if_pos hcw] at hw
      split at hw
      · exact ih [] (by simp) w hw
      · rename_i hne
        rcases List.mem_cons.mp hw with h1 | h1
        · subst h1
          constructor
          · intro hnil
            have : cur = [] := by simpa using congrArg List.reverse hnil
            rw [this] at hne
            simp at hne
          · intro d hd
            exact hcur d (List.mem_reverse.mp hd)
        · exact ih [] (by simp) w h1
    · rw [if_neg hcw] at hw
      refine ih (c :: cur) ?_ w hw
      intro d hd
      rcases List.mem_cons.mp hd with h1 | h1
      · subst h1
        simpa using hcw
      · exact hcur d h1

theorem wordsOf_wf (v : List Char) :
    ∀ w ∈ wordsOf v, w ≠ [] ∧ ∀ c ∈ w, c.isWhitespace = false :=
  wordsAux_wf v [] (by simp)

theorem wordsAux_word (w : List Char) (hw : ∀ c ∈ w, c.isWhitespace = false) :
    ∀ (cur cs : List Char), wordsAux cur (w ++ cs) = wordsAux (w.reverse ++ cur) cs := by
  induction w with
  | nil => intro cur cs; simp
  | cons c w' ih =>
    intro cur cs
    have hc : c.isWhitespace = false := hw c (List.mem_cons_self c w')
    have hw' : ∀ d ∈ w', d.isWhitespace = false := fun d hd =>
      hw d (List.mem_cons_of_mem c hd)
    rw [List.cons_append]
    simp only [wordsAux, hc]
    rw [if_neg (by simp [hc])]
    rw [ih hw' (c :: cur) cs]
    congr 1
    simp

theorem wordsOf_joinSpace (ws : List (List Char))
    (h : ∀ w ∈ ws, w ≠ [] ∧ ∀ c ∈ w, c.isWhitespace = false) :
    wordsOf (joinSpace ws) = ws := by
  induction ws with
  | nil => rfl
  | cons w ws' ih =>
    obtain ⟨hne, hnw⟩ := h w (List.mem_cons_self w ws')
    have h' : ∀ u ∈ ws', u ≠ [] ∧ ∀ c ∈ u, c.isWhitespace = false := fun u hu =>
      h u (List.mem_cons_of_mem w hu)
    cases ws' with
    | nil =>
      show wordsAux [] w = [w]
      have hwd := wordsAux_word w hnw [] []
      rw [List.append_nil, List.append_nil] at hwd
      rw [hwd]
      simp only [wordsAux]
      rw [if_neg (by simpa using hne)]
      simp
    | cons u us =>
      show wordsAux [] (w ++ ' ' :: joinSpace (u :: us)) = w :: u :: us
      rw [wordsAux_word w hnw [] (' ' :: joinSpace (u :: us))]
      rw [List.append_nil]
      simp only [wordsAux]
      rw [if_pos (by decide)]
      rw [if_neg (by simpa using hne)]
      rw [show (w.reverse.reverse) = w from by simp]
      rw [show wordsAux [] (joinSpace (u :: us)) = wordsOf (joinSpace (u :: us)) from rfl]
      rw [ih h']

/-! ## The filter is stable on its own output -/

theorem filterAttr_cases {t : List Char} {a b : List Char × List Char}
    (hb : b ∈ filterAttr t a) :
    (∃ ks, b = (sl "class", joinSpace ks) ∧ ks ≠ [] ∧
      (∀ w ∈ ks, w ∈ allowedClassesFor t) ∧
      (∀ w ∈ ks, w ≠ [] ∧ ∀ c ∈ w, c.isWhitespace = false)) ∨
    (b = a ∧ a.1 ≠ sl "class" ∧ (a.1 ∈ tagAttrsFor t ∨ a.1 ∈ genericAttrs)) := by
  unfold filterAttr at hb
  split at hb
  · rename_i hcls
    split at hb
    · simp at hb
    · rename_i hks
      simp only [List.mem_singleton] at hb
      left
      refine ⟨(wordsOf a.2).filter (fun w => w ∈ allowedClassesFor t), hb, ?_, ?_, ?_⟩
      · intro hnil
        rw [hnil] at hks
        simp at hks
      · intro w hw
        have := (List.mem_filter.mp hw).2
        simpa using this
      · intro w hw
        exact wordsOf_wf a.2 w (List.mem_filter.mp hw).1
  · split at hb
    · rename_i hcls hmem
      simp only [List.mem_singleton] at hb
      right
      exact ⟨hb, hcls, hmem⟩
    · simp at hb

theorem filterAttr_self {t : List Char} {a b : List Char × List Char}
    (hb : b ∈ filterAttr t a) : filterAttr t b = [b] := by
  rcases filterAttr_cases hb with ⟨ks, hbe, hne, hall, hwf⟩ | ⟨hba, hcls, hmem⟩
  · subst hbe
    unfold filterAttr
    rw [if_pos rfl]
    show (if ((wordsOf (joinSpace ks)).filter
        (fun w => w ∈ allowedClassesFor t)).isEmpty then _ else _) = _
    rw [wordsOf_joinSpace ks hwf]
    rw [List.filter_eq_self.mpr (fun w hw => by simpa using hall w hw)]
    rw [if_neg (by simpa using hne)]
  · subst hba
    unfold filterAttr
    rw [if_neg hcls, if_pos hmem]

theorem filterAttrsFor_append (t : List Char)
    (xs ys : List (List Char × List Char)) :
    filterAttrsFor t (xs ++ ys) = filterAttrsFor t xs ++ filterAttrsFor t ys := by
  induction xs with
  | nil => rfl
  | cons a xs' ih =>
    show filterAttr t a ++ filterAttrsFor t (xs' ++ ys)
      = (filterAttr t a ++ filterAttrsFor t xs') ++ filterAttrsFor t ys
    rw [ih, List.append_assoc]

theorem filterAttrsFor_mem {t : List Char} {as : List (List Char × List Char)}
    {b : List Char × List Char} (hb : b ∈ filterAttrsFor t as) :
    ∃ a ∈ as, b ∈ filterAttr t a := by
  induction as with
  | nil => simp [filterAttrsFor] at hb
  | cons a as' ih =>
    have : filterAttrsFor t (a :: as') = filterAttr t a ++ filterAttrsFor t as' := rfl
    rw [this] at hb
    rcases List.mem_append.mp hb with h1 | h1
    · exact ⟨a, List.mem_cons_self a as', h1⟩
    · obtain ⟨a0, ha0, hba0⟩ := ih h1
      exact ⟨a0, List.mem_cons_of_mem a ha0, hba0⟩

theorem filterAttrsFor_of_fixed {t : List Char} {as : List (List Char × List Char)}
    (h : ∀ b ∈ as, filterAttr t b = [b]) : filterAttrsFor t as = as := by
  induction as with
  | nil => rfl
  | cons a as' ih =>
    show filterAttr t a ++ filterAttrsFor t as' = a :: as'
    rw [h a (List.mem_cons_self a as'),
      ih (fun b hb => h b (List.mem_cons_of_mem a hb))]
    rfl

theorem filterAttr_relAttr_a : filterAttr (sl "a") relAttr = [] := by decide

theorem keepOpen_stable (n : List Char) (attrs : List (List Char × List Char)) :
    keepOpen n (filterAttrsFor n attrs ++ if n = sl "a" then [relAttr] else [])
      = .openTag n (filterAttrsFor n attrs ++ if n = sl "a" then [relAttr] else []) := by
  unfold keepOpen
  congr 1
  rw [filterAttrsFor_append]
  rw [filterAttrsFor_of_fixed (fun b hb => by
    obtain ⟨a, _, hba⟩ := filterAttrsFor_mem hb
    exact filterAttr_self hba)]
  have hR : filterAttrsFor n (if n = sl "a" then [relAttr] else []) = [] := by
    by_cases hn : n = sl "a"
    · rw [if_pos hn, hn]
      show filterAttr (sl "a") relAttr ++ [] = []
      rw [filterAttr_relAttr_a]
      rfl
    · rw [if_neg hn]
      rfl
  rw [hR, List.append_nil]

/-! ## Sane tokens: what the filter can emit -/

/-- A token the filter can emit at depth zero: text, an allowed opening
tag that the filter leaves unchanged, or an allowed closing tag. -/
def saneTok : Tok → Prop
  | .text _ => True
  | .openTag n attrs => n ∈ allowedTags ∧ keepOpen n attrs = .openTag n attrs
  | .closeTag n => n ∈ allowedTags

theorem allowedTags_wf : ∀ n ∈ allowedTags,
    n ≠ [] ∧ n.all isNameChar = true := by decide

theorem allowed_not_cc : ∀ n ∈ allowedTags, n ∉ cleanContentTags := by decide

theorem genericAttrs_wf : ∀ a ∈ genericAttrs,
    a ≠ [] ∧ a.all isNameChar = true := by decide

theorem tagAttrsFor_wf (n : List Char) (a : List Char)
    (ha : a ∈ tagAttrsFor n) : a ≠ [] ∧ a.all isNameChar = true := by
  unfold tagAttrsFor at ha
  repeat' split at ha
  all_goals fin_cases ha <;> decide

theorem filterToks_sane (d : Nat) (ts : List Tok) :
    ∀ t ∈ filterToks d ts, saneTok t := by
  induction ts generalizing d with
  | nil => intro t ht; simp [filterToks] at ht
  | cons t0 ts ih =>
    intro t ht
    cases t0 with
    | text s =>
      simp only [filterToks] at ht
      split at ht
      · exact ih _ t ht
      · rcases List.mem_cons.mp ht with rfl | h
        · trivial
        · exact ih _ t h
    | openTag n attrs =>
      simp only [filterToks] at ht
      split at ht
      · exact ih _ t ht
      · split at ht
        · exact ih _ t ht
        · split at ht
          · rename_i hmem
            rcases List.mem_cons.mp ht with rfl | h
            · show saneTok (keepOpen n attrs)
              rw [keepOpen]
              exact ⟨hmem, keepOpen_stable n attrs⟩
            · exact ih _ t h
          · exact ih _ t ht
    | closeTag n =>
      simp only [filterToks] at ht
      split at ht
      · split at ht
        · exact ih _ t ht
        · exact ih _ t ht
      · split at ht
        · rename_i hmem
          rcases List.mem_cons.mp ht with rfl | h
          · exact hmem
          · exact ih _ t h
        · exact ih _ t ht

theorem filterToks_id (ts : List Tok) (h : ∀ t ∈ ts, saneTok t) :
    filterToks 0 ts = ts := by
  induction ts with
  | nil => rfl
  | cons t0 ts ih =>
    have h0 := h t0 (List.mem_cons_self t0 ts)
    have ih1 := ih (fun t ht => h t (List.mem_cons_of_mem t0 ht))
    cases t0 with
    | text s =>
      simp only [filterToks]
      rw [if_neg (by simp), ih1]
    | openTag n attrs =>
      obtain ⟨hmem, hfix⟩ := h0
      simp only [filterToks]
      rw [if_neg (allowed_not_cc n hmem), if_neg (by simp), if_pos hmem,
        hfix, ih1]
    | closeTag n =>
      have hmem : n ∈ allowedTags := h0
      simp only [filterToks]
      rw [if_neg (by simp), if_pos hmem, ih1]

theorem pushChar_sane (c : Char) (ts : List Tok) (h : ∀ t ∈ ts, saneTok t) :
    ∀ t ∈ pushChar c ts, saneTok t := by
  intro t ht
  cases ts with
  | nil =>
    rw [show pushChar c [] = [.text [c]] from rfl] at ht
    rcases List.mem_singleton.mp ht with rfl
    trivial
  | cons t0 ts =>
    cases t0 with
    | text s =>
      rw [show pushChar c (.text s :: ts) = .text (c :: s) :: ts
        from rfl] at ht
      rcases List.mem_cons.mp ht with rfl | h1
      · trivial
      · exact h t (List.mem_cons_of_mem _ h1)
    | openTag n attrs =>
      rw [show pushChar c (.openTag n attrs :: ts)
          = .text [c] :: .openTag n attrs :: ts from rfl] at ht
      rcases List.mem_cons.mp ht with rfl | h1
      · trivial
      · exact h t h1
    | closeTag n =>
      rw [show pushChar c (.closeTag n :: ts)
          = .text [c] :: .closeTag n :: ts from rfl] at ht
      rcases List.mem_cons.mp ht with rfl | h1
      · trivial
      · exact h t h1

theorem pushText_sane (s : List Char) (ts : List Tok)
    (h : ∀ t ∈ ts, saneTok t) : ∀ t ∈ pushText s ts, saneTok t := by
  induction s with
  | nil => exact h
  | cons c cs ih =>
    show ∀ t ∈ pushChar c (pushText cs ts), saneTok t
    exact pushChar_sane c _ ih

theorem normToks_sane (ts : List Tok) (h : ∀ t ∈ ts, saneTok t) :
    ∀ t ∈ normToks ts, saneTok t := by
  induction ts with
  | nil => intro t ht; simp [normToks] at ht
  | cons t0 ts ih =>
    have ih1 := ih (fun t ht => h t (List.mem_cons_of_mem t0 ht))
    cases t0 with
    | text s =>
      show ∀ t ∈ pushText s (normToks ts), saneTok t
      exact pushText_sane s _ ih1
    | openTag n attrs =>
      intro t ht
      rw [show normToks (.openTag n attrs :: ts)
          = .openTag n attrs :: normToks ts from rfl] at ht
      rcases List.mem_cons.mp ht with rfl | h1
      · exact h _ (List.mem_cons_self _ _)
      · exact ih1 t h1
    | closeTag n =>
      intro t ht
      rw [show normToks (.closeTag n :: ts)
          = .closeTag n :: normToks ts from rfl] at ht
      rcases List.mem_cons.mp ht with rfl | h1
      · exact h _ (List.mem_cons_self _ _)
      · exact ih1 t h1

theorem saneTok_wf {t : Tok} (h : saneTok t) : wfTok t := by
  cases t with
  | text s => trivial
  | closeTag n => exact allowedTags_wf n h
  | openTag n attrs =>
    obtain ⟨hmem, hfix⟩ := h
    refine ⟨allowedTags_wf n hmem, ?_⟩
    intro a ha
    rw [keepOpen] at hfix
    injection hfix with h1 h2
    rw [← h2] at ha
    rcases List.mem_append.mp ha with ha1 | ha1
    · obtain ⟨a0, _, ha0⟩ := filterAttrsFor_mem ha1
      rcases filterAttr_cases ha0 with ⟨ks, hbe, _, _, _⟩ | ⟨hba, _, hpol⟩
      · rw [hbe]
        exact ⟨show sl "class" ≠ [] by decide,
          show (sl "class").all isNameChar = true by decide⟩
      · rw [hba]
        rcases hpol with hp | hp
        · exact tagAttrsFor_wf n a0.1 hp
        · exact genericAttrs_wf a0.1 hp
    · by_cases hn : n = sl "a"
      · rw [if_pos hn] at ha1
        rcases List.mem_singleton.mp ha1 with rfl
        exact ⟨by decide, by decide⟩
      · rw [if_neg hn] at ha1
        simp at ha1

/-! ## Serialization is blind to text normalization -/

theorem serToks_pushChar (c : Char) (ts : List Tok) :
    serToks (pushChar c ts) = escTextChar c ++ serToks ts := by
  cases ts with
  | nil =>
    show escText [c] ++ [] = escTextChar c ++ serToks []
    rw [show escText [c] = escTextChar c ++ [] from rfl, List.append_nil]
    rfl
  | cons t0 ts =>
    cases t0 with
    | text s =>
      show escText (c :: s) ++ serToks ts
        = escTextChar c ++ (escText s ++ serToks ts)
      rw [show escText (c :: s) = escTextChar c ++ escText s from rfl,
        List.append_assoc]
    | openTag n attrs =>
      rw [show pushChar c (.openTag n attrs :: ts)
          = .text [c] :: .openTag n attrs :: ts from rfl]
      show escText [c] ++ _ = _
      rw [show escText [c] = escTextChar c ++ [] from rfl, List.append_nil]
      rfl
    | closeTag n =>
      rw [show pushChar c (.closeTag n :: ts)
          = .text [c] :: .closeTag n :: ts from rfl]
      show escText [c] ++ _ = _
      rw [show escText [c] = escTextChar c ++ [] from rfl, List.append_nil]
      rfl

theorem serToks_pushText (s : List Char) (ts : List Tok) :
    serToks (pushText s ts) = escText s ++ serToks ts := by
  induction s with
  | nil => rfl
  | cons c cs ih =>
    show serToks (pushChar c (pushText cs ts)) = _
    rw [serToks_pushChar, ih,
      show escText (c :: cs) = escTextChar c ++ escText cs from rfl,
      List.append_assoc]

theorem serToks_normToks (ts : List Tok) :
    serToks (normToks ts) = serToks ts := by
  induction ts with
  | nil => rfl
  | cons t0 ts ih =>
    cases t0 with
    | text s =>
      show serToks (pushText s (normToks ts)) = escText s ++ serToks ts
      rw [serToks_pushText, ih]
    | openTag n attrs =>
      show serTok (.openTag n attrs) ++ serToks (normToks ts) = _
      rw [ih]
      rfl
    | closeTag n =>
      show serTok (.closeTag n) ++ serToks (normToks ts) = _
      rw [ih]
      rfl

/-! ## Idempotence of the sanitizer -/

theorem sanitizeChars_idem (cs : List Char) :
    sanitizeChars (sanitizeChars cs) = sanitizeChars cs := by
  show serToks (filterToks 0 (tokenize (serToks (filterToks 0 (tokenize cs)))))
    = serToks (filterToks 0 (tokenize cs))
  have hsane := filterToks_sane 0 (tokenize cs)
  rw [tokenize_serToks _ (fun t ht => saneTok_wf (hsane t ht))]
  rw [filterToks_id _ (normToks_sane _ hsane)]
  exact serToks_normToks _

/-! ## The policy-conformance property of the spec (claim C1) -/

/-- One attribute conforms to the configured policy for tag `n`: a class
attribute carries only class names allowed for the tag; any other attribute
is in the tag-attribute set, generic, or the configured `rel` on anchors. -/
def attrPolOk (n : List Char) (a : List Char × List Char) : Bool :=
  if a.1 = sl "class" then (wordsOf a.2).all fun w => w ∈ allowedClassesFor n
  else decide (a.1 ∈ tagAttrsFor n ∨ a.1 ∈ genericAttrs
    ∨ (n = sl "a" ∧ a.1 = sl "rel"))

def polOkTok : Tok → Bool
  | .text _ => true
  | .openTag n attrs => decide (n ∈ allowedTags) && attrs.all (attrPolOk n)
  | .closeTag n => decide (n ∈ allowedTags)

/-- The fuzz property of the spec: every tag of the string is in the
allowlist and every attribute and class value is allowed for its tag. -/
def htmlPolicyOk (s : String) : Bool := (tokenize s.toList).all polOkTok

theorem attrPolOk_class (n : List Char) (v : List Char) :
    attrPolOk n (sl "class", v)
      = (wordsOf v).all fun w => w ∈ allowedClassesFor n := by
  simp [attrPolOk]

theorem saneTok_polOk {t : Tok} (h : saneTok t) : polOkTok t = true := by
  cases t with
  | text s => rfl
  | closeTag n => simpa [polOkTok] using h
  | openTag n attrs =>
    obtain ⟨hmem, hfix⟩ := h
    show (decide (n ∈ allowedTags) && attrs.all (attrPolOk n)) = true
    rw [Bool.and_eq_true]
    refine ⟨by simpa using hmem, ?_⟩
    rw [List.all_eq_true]
    intro a ha
    rw [keepOpen] at hfix
    injection hfix with h1 h2
    rw [← h2] at ha
    rcases List.mem_append.mp ha with ha1 | ha1
    · obtain ⟨a0, _, ha0⟩ := filterAttrsFor_mem ha1
      rcases filterAttr_cases ha0 with ⟨ks, hbe, _, hall, hwf⟩ | ⟨hba, hcls, hpol⟩
      · rw [hbe, attrPolOk_class, wordsOf_joinSpace ks hwf, List.all_eq_true]
        intro w hw
        simpa using hall w hw
      · rw [hba]
        unfold attrPolOk
        rw [if_neg hcls]
        simp only [decide_eq_true_eq]
        rcases hpol with hp | hp
        · exact Or.inl hp
        · exact Or.inr (Or.inl hp)
    · by_cases hn : n = sl "a"
      · rw [if_pos hn] at ha1
        rcases List.mem_singleton.mp ha1 with rfl
        subst hn
        decide
      · rw [if_neg hn] at ha1
        simp at ha1

/-- C1: for every input string, `render_obsidian_markdown` terminates (the
model is a total function) and returns HTML in which every tag is in the
sanitizer allowlist and every attribute and every class value on a tag is
allowed for that tag by the configured policy. -/
theorem c1_render_conforms_to_policy (content : String) :
    htmlPolicyOk (render_obsidian_markdown content) = true := by
  unfold htmlPolicyOk render_obsidian_markdown
  rw [toList_asString]
  show (tokenize (serToks (filterToks 0
    (tokenize (postprocessedHtml content))))).all polOkTok = true
  have hsane := filterToks_sane 0 (tokenize (postprocessedHtml content))
  rw [tokenize_serToks _ (fun t ht => saneTok_wf (hsane t ht))]
  rw [List.all_eq_true]
  intro t ht
  exact saneTok_polOk (normToks_sane _ hsane t ht)

/-- C4: the sanitizer is idempotent: re-sanitizing already-sanitized output
yields byte-identical output. -/
theorem c4_sanitize_html_idempotent (h : String) :
    sanitize_html (sanitize_html h) = sanitize_html h := by
  unfold sanitize_html
  rw [toList_asString, sanitizeChars_idem]

/-! ## Claims C2 and C3: wiki-link anchors and script in code blocks -/

/-- The code-block input of the XSS regression property. -/
def mdScriptInput : String := "```\n<script>alert(1)</script>\n```"

set_option maxRecDepth 100000 in
/-- C3: code-block content `<script>alert(1)</script>` appears in the final
output only escaped: no `script` element can open in any rendered output
(first conjunct); the event transform HTML-escapes every text event inside a
code block (second conjunct); and on the concrete code-block input the
output holds the escaped text inside a `code` element and no `<script` at
all (third conjunct). -/
theorem c3_script_in_code_escaped :
    (∀ (content : String) (attrs : List (List Char × List Char)),
      Tok.openTag (sl "script") attrs
        ∉ tokenize (render_obsidian_markdown content).toList)
    ∧ (∀ (es : List MdEvent) (lang t : List Char),
        transformEvents (.mdText t :: es) true lang
          = .mdHtml (escapeChars t) :: transformEvents es true lang)
    ∧ (containsSub (render_obsidian_markdown mdScriptInput) "<code>" = true
      ∧ containsSub (render_obsidian_markdown mdScriptInput)
          "&lt;script&gt;alert(1)&lt;/script&gt;" = true
      ∧ containsSub (render_obsidian_markdown mdScriptInput) "<script" = false) := by
  refine ⟨?_, ?_, ?_, ?_, ?_⟩
  · intro content attrs hmem
    rw [render_obsidian_markdown, toList_asString] at hmem
    have hsane := filterToks_sane 0 (tokenize (postprocessedHtml content))
    rw [show sanitizeChars (postprocessedHtml content)
        = serToks (filterToks 0 (tokenize (postprocessedHtml content)))
      from rfl] at hmem
    rw [tokenize_serToks _ (fun t ht => saneTok_wf (hsane t ht))] at hmem
    have hs := normToks_sane _ hsane _ hmem
    exact absurd hs.1 (by decide)
  · intro es lang t
    simp [transformEvents]
  · decide
  · decide
  · decide

set_option maxRecDepth 100000 in
/-- C2: the claim asserts the final output of `render("[[My Page]]")` carries
`href="/blogs/my-page"`; in the code the sanitizer installs a replacing
tag-attribute map that does not allow `href` on anchors, so the href is
stripped while `data-page` survives: the final output holds
`data-page="My Page"` and no `href` at all. -/
theorem c2_wiki_link_href_stripped :
    containsSub (render_obsidian_markdown "[[My Page]]")
      "data-page=\"My Page\"" = true
    ∧ containsSub (render_obsidian_markdown "[[My Page]]") "href" = false := by
  constructor <;> decide

end Blog
